import Mathlib

/-!
Verification of the symbolic automatic-differentiation engine of
`src/pass/autodiff.cc` against its natural-language specification.

The expression IR, the scalar Jacobian mutator (`JacobianMutator`),
`generalized_matmul` and the reverse-mode driver `Differentiate` are
shallowly embedded below.  External collaborators that live outside the
sources (`CloneReduction`, `SimplifyCombiner`, `Substitute`, `Simplify`,
`OptimizeAndLiftNonzeronessConditions`, `topi::add`, the per-edge
function `fdiff`) are universally quantified parameters of the
embedding, so the theorems hold for every behaviour of those
collaborators; hypotheses record the facts the engine relies on (for
instance that `SimplifyCombiner` preserves the type of its argument).
Recursion that is unbounded in the C++ sources (the expression mutator,
the memoized adjoint recursion, the work-list loop) is made total with
an explicit fuel argument; running out of fuel is a distinguished
outcome that no theorem ever confuses with the engine's own failures.
-/

set_option maxRecDepth 4000

namespace Autodiff

/-- Type codes of the IR's numeric types (`kDLInt` / `kDLUInt` / `kDLFloat`
plus the opaque handle code). -/
inductive TypeCode where
  | int
  | uint
  | float
  | handle
deriving DecidableEq, Repr

/-- A numeric type of the IR: code, bit width and number of lanes. -/
structure DType where
  code : TypeCode
  bits : Nat
  lanes : Nat
deriving DecidableEq, Repr

def DType.isFloat (t : DType) : Bool := t.code == TypeCode.float

/-- `Bool()` : a one-bit unsigned scalar type. -/
def boolType : DType := ⟨TypeCode.uint, 1, 1⟩

/-- `Bool(lanes)` : the type of a comparison of vectors with that many lanes. -/
def boolOf (lanes : Nat) : DType := ⟨TypeCode.uint, 1, lanes⟩

def int32 : DType := ⟨TypeCode.int, 32, 1⟩

def float32 : DType := ⟨TypeCode.float, 32, 1⟩

def handleType : DType := ⟨TypeCode.handle, 64, 1⟩

/-- A variable (`Variable` node).  Node identity is modelled by the name
(the C++ sources compare `Variable` pointers; distinct variables are
assumed to carry distinct names). -/
structure Var where
  name : String
  type : DType
deriving DecidableEq, Repr

/-- `Var::copy_with_suffix` : a fresh variable whose name is the old name
with the suffix appended. -/
def copyWithSuffix (v : Var) (s : String) : Var := ⟨v.name ++ s, v.type⟩

/-- The call types of `Call` nodes (`Call::CallType`). -/
inductive CallType where
  | externC
  | externCpp
  | pureExternC
  | halide
  | intrinsic
  | pureIntrinsic
deriving DecidableEq, Repr

/-- The expression IR.  Every node that stores a type in the C++ IR
carries it here as well (`reduce` and `shuffle` store the type computed
by their `make` functions).  A reduction axis is a triple
(variable, range min, range extent). -/
inductive Expr where
  | var (v : Var)
  | intImm (ty : DType) (value : Int)
  | uintImm (ty : DType) (value : Nat)
  | floatImm (ty : DType) (value : Rat)
  | stringImm (value : String)
  | cast (ty : DType) (value : Expr)
  | add (a b : Expr)
  | sub (a b : Expr)
  | mul (a b : Expr)
  | div (a b : Expr)
  | mod (a b : Expr)
  | min (a b : Expr)
  | max (a b : Expr)
  | eq (a b : Expr)
  | ne (a b : Expr)
  | lt (a b : Expr)
  | le (a b : Expr)
  | gt (a b : Expr)
  | ge (a b : Expr)
  | and (a b : Expr)
  | or (a b : Expr)
  | not (a : Expr)
  | select (cond tval fval : Expr)
  | call (ty : DType) (name : String) (args : List Expr) (cty : CallType)
      (funcId : Nat) (valueIndex : Nat)
  | reduce (ty : DType) (lhs rhs : List Var) (result identity : List Expr)
      (source : List Expr) (axis : List (Var × Expr × Expr)) (cond : Expr)
      (valueIndex : Nat)
  | ramp (base stride : Expr) (lanes : Nat)
  | broadcast (value : Expr) (lanes : Nat)
  | load (ty : DType) (bufferVar : Var) (index pred : Expr)
  | letE (v : Var) (value body : Expr)
  | shuffle (ty : DType) (vectors indices : List Expr)

/-- Default expression used to translate the C++ `operator[]` on arrays
(whose out-of-range behaviour is undefined). -/
def dfltE : Expr := .intImm int32 0

def dfltVar : Var := ⟨"", int32⟩

/-- The type stored on / computed for each IR node (every `make`
function of the C++ IR assigns the node type this way). -/
def Expr.typeOf : Expr → DType
  | .var v => v.type
  | .intImm ty _ => ty
  | .uintImm ty _ => ty
  | .floatImm ty _ => ty
  | .stringImm _ => handleType
  | .cast ty _ => ty
  | .add a _ => a.typeOf
  | .sub a _ => a.typeOf
  | .mul a _ => a.typeOf
  | .div a _ => a.typeOf
  | .mod a _ => a.typeOf
  | .min a _ => a.typeOf
  | .max a _ => a.typeOf
  | .eq a _ => boolOf a.typeOf.lanes
  | .ne a _ => boolOf a.typeOf.lanes
  | .lt a _ => boolOf a.typeOf.lanes
  | .le a _ => boolOf a.typeOf.lanes
  | .gt a _ => boolOf a.typeOf.lanes
  | .ge a _ => boolOf a.typeOf.lanes
  | .and a _ => boolOf a.typeOf.lanes
  | .or a _ => boolOf a.typeOf.lanes
  | .not a => boolOf a.typeOf.lanes
  | .select _ tval _ => tval.typeOf
  | .call ty _ _ _ _ _ => ty
  | .reduce ty _ _ _ _ _ _ _ _ => ty
  | .ramp base _ lanes => ⟨base.typeOf.code, base.typeOf.bits, lanes⟩
  | .broadcast value lanes => ⟨value.typeOf.code, value.typeOf.bits, lanes⟩
  | .load ty _ _ _ => ty
  | .letE _ _ body => body.typeOf
  | .shuffle ty _ _ => ty

/-- `make_zero(type)` : a zero immediate of the given type. -/
def make_zero (t : DType) : Expr :=
  if t.isFloat then .floatImm t 0
  else if t.code == TypeCode.uint then .uintImm t 0
  else .intImm t 0

/-- `Reduce::make` : builds a reduction node; the node type is the type
of the selected source component. -/
def mkReduce (lhs rhs : List Var) (result identity source : List Expr)
    (axis : List (Var × Expr × Expr)) (cond : Expr) (vi : Nat) : Expr :=
  .reduce (source.getD vi dfltE).typeOf lhs rhs result identity source axis cond vi

/-! ### The scalar Jacobian mutator (`JacobianMutator`, autodiff.cc:47-238) -/

/-- What the mutator differentiates with respect to: either a scalar
variable (`JacobianMutator(VarExpr)`) or an element of a tensor
(`JacobianMutator(Tensor, Array<Expr>)`).  A tensor is identified by
the id of its operation, its value index and its rank. -/
structure TensorKey where
  funcId : Nat
  valueIndex : Nat
  ndim : Nat
deriving DecidableEq, Repr

inductive Wrt where
  | var (v : Var)
  | tensorEl (input : TensorKey) (indices : List Expr)

/-- The data of a `Reduce` node, the argument and result type of the
external `CloneReduction` helper (which is only ever applied to
`Reduce` expressions and yields a `Reduce` expression). -/
structure RedData where
  lhs : List Var
  rhs : List Var
  result : List Expr
  identity : List Expr
  source : List Expr
  axis : List (Var × Expr × Expr)
  cond : Expr
  valueIndex : Nat

/-- Context of one mutator: the `wrt` target plus the two external
collaborators used by the `Reduce` rule. -/
structure DCtx where
  wrt : Wrt
  cloneR : RedData → RedData
  simpC : Expr → Expr

/-- Failure outcomes of the mutator.  `unimpl` is the C++
`NOT_IMPLEMENTED` error (message "Derivative of this op is not
implemented"), `unimplIntrin name` is the error
"Derivative of this intrinsic is not implemented: name".
`fuelEx` is the artificial fuel-exhaustion outcome of the embedding. -/
inductive DError where
  | fuelEx
  | unimpl
  | unimplIntrin (name : String)
deriving DecidableEq, Repr

/-- Monadic map over a list, in left-to-right order. -/
def mapEx {α β : Type} (f : α → Except DError β) : List α → Except DError (List β)
  | [] => .ok []
  | a :: l => do
      let b ← f a
      let l' ← mapEx f l
      .ok (b :: l')

/-- Monadic left fold over a list. -/
def foldEx {α β : Type} (f : β → α → Except DError β) : β → List α → Except DError β
  | b, [] => .ok b
  | b, a :: l => do
      let b' ← f b a
      foldEx f b' l

/-- The names with a derivative rule in `Mutate_(const Call*)`. -/
def intrinTable : List String := ["exp", "log", "sigmoid", "tanh", "fabs"]

/-- One new combiner result (autodiff.cc:174-188): starting from a zero
of the result's type, add `new_lhs[i] * Derivative(res, lhs[i])` for
each lhs variable and then `new_rhs[i] * Derivative(res, rhs[i])` for
each rhs variable.  `Derivative` builds a fresh variable-mode mutator. -/
def combineDer (recur : DCtx → Expr → Except DError Expr) (ctx : DCtx)
    (r' : RedData) (newLhs newRhs : List Var) (res : Expr) : Except DError Expr := do
  let z := make_zero res.typeOf
  let s1 ← foldEx (fun acc i => do
      let rdi ← recur { ctx with wrt := .var (r'.lhs.getD i dfltVar) } res
      .ok (.add acc (.mul (.var (newLhs.getD i dfltVar)) rdi)))
    z (List.range r'.lhs.length)
  foldEx (fun acc i => do
      let rdi ← recur { ctx with wrt := .var (r'.rhs.getD i dfltVar) } res
      .ok (.add acc (.mul (.var (newRhs.getD i dfltVar)) rdi)))
    s1 (List.range r'.rhs.length)

/-- One step of the mutator: the dispatch over node kinds of
`JacobianMutator` (autodiff.cc:63-233), parameterised by the function
used for recursive mutation. -/
def derivAux (recur : DCtx → Expr → Except DError Expr) (ctx : DCtx) :
    Expr → Except DError Expr
  | .var v =>
      match ctx.wrt with
      | .var u => if u = v then .ok (.floatImm v.type 1) else .ok (make_zero v.type)
      | .tensorEl _ _ => .ok (make_zero v.type)
  | .load _ _ _ _ => .error .unimpl
  | .letE _ _ _ => .error .unimpl
  | .call ty name args cty funcId vi =>
      match cty with
      | .halide =>
          match ctx.wrt with
          | .tensorEl input indices =>
              if funcId = input.funcId ∧ vi = input.valueIndex then
                let condition := (List.range input.ndim).foldl
                  (fun acc i => .and acc (.eq (indices.getD i dfltE) (args.getD i dfltE)))
                  (.uintImm boolType 1)
                .ok (.cast ty condition)
              else .ok (make_zero ty)
          | .var _ => .ok (make_zero ty)
      | .pureIntrinsic =>
          let e := Expr.call ty name args cty funcId vi
          if name = "exp" then do
            let d ← recur ctx (args.getD 0 dfltE)
            .ok (.mul d e)
          else if name = "log" then do
            let d ← recur ctx (args.getD 0 dfltE)
            .ok (.div d (args.getD 0 dfltE))
          else if name = "sigmoid" then do
            let d ← recur ctx (args.getD 0 dfltE)
            .ok (.mul d (.mul e (.sub (.floatImm ty 1) e)))
          else if name = "tanh" then do
            let d ← recur ctx (args.getD 0 dfltE)
            .ok (.mul d (.sub (.floatImm ty 1) (.mul e e)))
          else if name = "fabs" then do
            let t0 := (args.getD 0 dfltE).typeOf
            let d ← recur ctx (args.getD 0 dfltE)
            .ok (.mul d (.select (.ge (args.getD 0 dfltE) (make_zero t0))
              (.floatImm t0 1) (.floatImm t0 (-1))))
          else .error (.unimplIntrin name)
      | _ => .error .unimpl
  | .add a b => do
      let da ← recur ctx a
      let db ← recur ctx b
      .ok (.add da db)
  | .sub a b => do
      let da ← recur ctx a
      let db ← recur ctx b
      .ok (.sub da db)
  | .mul a b => do
      let da ← recur ctx a
      let db ← recur ctx b
      .ok (.add (.mul da b) (.mul a db))
  | .div a b => do
      let da ← recur ctx a
      let db ← recur ctx b
      .ok (.div (.sub (.mul da b) (.mul a db)) (.mul b b))
  | .mod _ _ => .error .unimpl
  | .min a b => do
      let da ← recur ctx a
      let db ← recur ctx b
      .ok (.select (.le a b) da db)
  | .max a b => do
      let da ← recur ctx a
      let db ← recur ctx b
      .ok (.select (.ge a b) da db)
  | .eq _ _ => .error .unimpl
  | .ne _ _ => .error .unimpl
  | .lt _ _ => .error .unimpl
  | .le _ _ => .error .unimpl
  | .gt _ _ => .error .unimpl
  | .ge _ _ => .error .unimpl
  | .and _ _ => .error .unimpl
  | .or _ _ => .error .unimpl
  | .reduce _ lhs rhs result identity source axis cond vi =>
      let r' := ctx.cloneR ⟨lhs, rhs, result, identity, source, axis, cond, vi⟩
      let newLhs := r'.lhs.map (fun v => copyWithSuffix v ".der") ++ r'.lhs
      let newRhs := r'.rhs.map (fun v => copyWithSuffix v ".der") ++ r'.rhs
      do
        let dres ← mapEx (combineDer recur ctx r' newLhs newRhs) r'.result
        let dids ← mapEx (recur ctx) r'.identity
        let dsrcs ← mapEx (recur ctx) r'.source
        .ok (ctx.simpC (mkReduce newLhs newRhs (dres ++ r'.result)
          (dids ++ r'.identity) (dsrcs ++ r'.source) r'.axis r'.cond r'.valueIndex))
  | .cast ty value =>
      if ty.isFloat then do
        let d ← recur ctx value
        .ok (.cast ty d)
      else .ok (make_zero ty)
  | .not _ => .error .unimpl
  | .select cond tval fval => do
      let dt ← recur ctx tval
      let df ← recur ctx fval
      .ok (.select cond dt df)
  | .ramp _ _ _ => .error .unimpl
  | .broadcast _ _ => .error .unimpl
  | .intImm ty _ => .ok (.intImm ty 0)
  | .uintImm ty _ => .ok (.uintImm ty 0)
  | .floatImm ty _ => .ok (.floatImm ty 0)
  | .stringImm _ => .error .unimpl
  | .shuffle _ _ _ => .error .unimpl

/-- The mutator itself, with fuel bounding the recursion depth. -/
def deriv : Nat → DCtx → Expr → Except DError Expr
  | 0, _, _ => .error .fuelEx
  | fuel + 1, ctx, e => derivAux (deriv fuel) ctx e

/-- `Derivative(expr, var)` (autodiff.cc:244-246): differentiate `expr`
with respect to the variable `var`. -/
def DerivativeF (cloneR : RedData → RedData) (simpC : Expr → Expr)
    (fuel : Nat) (e : Expr) (v : Var) : Except DError Expr :=
  deriv fuel ⟨.var v, cloneR, simpC⟩ e

/-- `Jacobian(expr, input, indices)` (autodiff.cc:240-242): differentiate
`expr` with respect to the element `input[indices]`. -/
def JacobianExpr (cloneR : RedData → RedData) (simpC : Expr → Expr)
    (fuel : Nat) (e : Expr) (input : TensorKey) (indices : List Expr) :
    Except DError Expr :=
  deriv fuel ⟨.tensorEl input indices, cloneR, simpC⟩ e

/-! ### Well-typed expressions

`wellTyped e` states that `e` was built through the checked `make`
constructors of the IR: operands of a binary node share a type, the
branches of a `Select` share a type and its condition is boolean, the
argument of a supported pure intrinsic has the type of the call, and a
`Reduce` node's value index is in range with the node type equal to the
type of the selected source. -/

mutual

def wellTyped : Expr → Bool
  | .var _ => true
  | .intImm _ _ => true
  | .uintImm _ _ => true
  | .floatImm _ _ => true
  | .stringImm _ => true
  | .cast _ value => wellTyped value
  | .add a b => a.typeOf == b.typeOf && wellTyped a && wellTyped b
  | .sub a b => a.typeOf == b.typeOf && wellTyped a && wellTyped b
  | .mul a b => a.typeOf == b.typeOf && wellTyped a && wellTyped b
  | .div a b => a.typeOf == b.typeOf && wellTyped a && wellTyped b
  | .mod a b => a.typeOf == b.typeOf && wellTyped a && wellTyped b
  | .min a b => a.typeOf == b.typeOf && wellTyped a && wellTyped b
  | .max a b => a.typeOf == b.typeOf && wellTyped a && wellTyped b
  | .eq a b => a.typeOf == b.typeOf && wellTyped a && wellTyped b
  | .ne a b => a.typeOf == b.typeOf && wellTyped a && wellTyped b
  | .lt a b => a.typeOf == b.typeOf && wellTyped a && wellTyped b
  | .le a b => a.typeOf == b.typeOf && wellTyped a && wellTyped b
  | .gt a b => a.typeOf == b.typeOf && wellTyped a && wellTyped b
  | .ge a b => a.typeOf == b.typeOf && wellTyped a && wellTyped b
  | .and a b => a.typeOf == b.typeOf && wellTyped a && wellTyped b
  | .or a b => a.typeOf == b.typeOf && wellTyped a && wellTyped b
  | .not a => wellTyped a
  | .select cond tval fval =>
      tval.typeOf == fval.typeOf && (cond.typeOf == boolOf cond.typeOf.lanes)
        && wellTyped cond && wellTyped tval && wellTyped fval
  | .call ty name args cty _ _ =>
      wellTypedList args &&
        (!(cty == CallType.pureIntrinsic && intrinTable.contains name)
          || (args.getD 0 dfltE).typeOf == ty)
  | .reduce ty _ _ result identity source _ cond vi =>
      decide (vi < source.length) && ty == (source.getD vi dfltE).typeOf
        && wellTypedList source && wellTypedList result
        && wellTypedList identity && wellTyped cond
  | .ramp base stride _ => wellTyped base && wellTyped stride
  | .broadcast value _ => wellTyped value
  | .load _ _ index pred => wellTyped index && wellTyped pred
  | .letE _ value body => wellTyped value && wellTyped body
  | .shuffle _ vectors indices => wellTypedList vectors && wellTypedList indices

def wellTypedList : List Expr → Bool
  | [] => true
  | e :: l => wellTyped e && wellTypedList l

end

/-! ### Error classification of the scalar differentiator (claim C7) -/

/-- The node kinds on which `JacobianMutator` immediately raises
`NOT_IMPLEMENTED`, read off the dispatch table of the source:
`Load`, `Let`, `Mod`, the comparisons, `And`, `Or`, `Not`, `Ramp`,
`Broadcast`, `StringImm`, `Shuffle`, and every `Call` whose call type
is neither `Halide` nor `PureIntrinsic`. -/
def unsupportedKind : Expr → Bool
  | .load _ _ _ _ => true
  | .letE _ _ _ => true
  | .mod _ _ => true
  | .not _ => true
  | .ramp _ _ _ => true
  | .broadcast _ _ => true
  | .stringImm _ => true
  | .shuffle _ _ _ => true
  | .eq _ _ => true
  | .ne _ _ => true
  | .lt _ _ => true
  | .le _ _ => true
  | .gt _ _ => true
  | .ge _ _ => true
  | .and _ _ => true
  | .or _ _ => true
  | .call _ _ _ cty _ _ => !(cty == CallType.halide || cty == CallType.pureIntrinsic)
  | _ => false

/-- Modelled from the spec: the list of failing node kinds named by the
claim — "Load, Let, Mod, Not, Ramp, Broadcast, StringImm, Shuffle,
comparisons, logicals" — used only to compare the claim against the
source (note it contains no `Call` kind). -/
def specUnsupportedKinds : Expr → Bool
  | .load _ _ _ _ => true
  | .letE _ _ _ => true
  | .mod _ _ => true
  | .not _ => true
  | .ramp _ _ _ => true
  | .broadcast _ _ => true
  | .stringImm _ => true
  | .shuffle _ _ _ => true
  | .eq _ _ => true
  | .ne _ _ => true
  | .lt _ _ => true
  | .le _ _ => true
  | .gt _ _ => true
  | .ge _ _ => true
  | .and _ _ => true
  | .or _ _ => true
  | _ => false

theorem deriv_succ (fuel : Nat) (ctx : DCtx) (e : Expr) :
    deriv (fuel + 1) ctx e = derivAux (deriv fuel) ctx e := rfl

theorem bindE_error {α β : Type} {m : Except DError α} {f : α → Except DError β}
    {err : DError} (h : (m >>= f) = .error err) :
    m = .error err ∨ ∃ a, m = .ok a ∧ f a = .error err := by
  cases m with
  | error e =>
      left
      have : e = err := by
        simpa [Bind.bind, Except.bind] using h
      rw [this]
  | ok a =>
      right
      exact ⟨a, rfl, by simpa [Bind.bind, Except.bind] using h⟩

theorem bindE_ok {α β : Type} {m : Except DError α} {f : α → Except DError β}
    {b : β} (h : (m >>= f) = .ok b) : ∃ a, m = .ok a ∧ f a = .ok b := by
  cases m with
  | error e => simp [Bind.bind, Except.bind] at h
  | ok a => exact ⟨a, rfl, by simpa [Bind.bind, Except.bind] using h⟩

theorem mapEx_error {α β : Type} {f : α → Except DError β} :
    ∀ {l : List α} {err : DError}, mapEx f l = .error err →
      ∃ a ∈ l, f a = .error err := by
  intro l
  induction l with
  | nil => intro err h; simp [mapEx] at h
  | cons a l ih =>
      intro err h
      simp only [mapEx] at h
      rcases bindE_error h with h1 | ⟨b, _, h2⟩
      · exact ⟨a, List.mem_cons_self a l, h1⟩
      · rcases bindE_error h2 with h3 | ⟨l', _, h4⟩
        · obtain ⟨x, hx, hfx⟩ := ih h3
          exact ⟨x, List.mem_cons_of_mem a hx, hfx⟩
        · simp at h4

theorem mapEx_ok {α β : Type} {f : α → Except DError β} :
    ∀ {l : List α} {l' : List β}, mapEx f l = .ok l' →
      List.Forall₂ (fun a b => f a = .ok b) l l' := by
  intro l
  induction l with
  | nil =>
      intro l' h
      simp only [mapEx] at h
      injection h with h
      rw [← h]
      exact List.Forall₂.nil
  | cons a l ih =>
      intro l' h
      simp only [mapEx] at h
      rcases bindE_ok h with ⟨b, hb, h2⟩
      rcases bindE_ok h2 with ⟨tl, htl, h3⟩
      injection h3 with h3
      rw [← h3]
      exact List.Forall₂.cons hb (ih htl)

theorem foldEx_error {α β : Type} {f : β → α → Except DError β} :
    ∀ {l : List α} {b : β} {err : DError}, foldEx f b l = .error err →
      ∃ b' a, a ∈ l ∧ f b' a = .error err := by
  intro l
  induction l with
  | nil => intro b err h; simp [foldEx] at h
  | cons a l ih =>
      intro b err h
      simp only [foldEx] at h
      rcases bindE_error h with h1 | ⟨b', _, h2⟩
      · exact ⟨b, a, List.mem_cons_self a l, h1⟩
      · obtain ⟨b'', x, hx, hfx⟩ := ih h2
        exact ⟨b'', x, List.mem_cons_of_mem a hx, hfx⟩

theorem deriv_unsupported (fuel : Nat) (ctx : DCtx) (e : Expr)
    (h : unsupportedKind e = true) : deriv (fuel + 1) ctx e = .error .unimpl := by
  cases e with
  | call ty name args cty fid vi => cases cty <;> simp [unsupportedKind] at h <;> rfl
  | _ => first
      | rfl
      | simp [unsupportedKind] at h

theorem intrinTable_contains (name : String) :
    intrinTable.contains name = true ↔
      name = "exp" ∨ name = "log" ∨ name = "sigmoid" ∨ name = "tanh" ∨ name = "fabs" := by
  simp [intrinTable, List.contains, List.elem_eq_mem]

theorem deriv_unknown_intrinsic (fuel : Nat) (ctx : DCtx) (ty : DType) (name : String)
    (args : List Expr) (fid vi : Nat) (h : intrinTable.contains name = false) :
    deriv (fuel + 1) ctx (.call ty name args .pureIntrinsic fid vi)
      = .error (.unimplIntrin name) := by
  have hx : ¬(name = "exp" ∨ name = "log" ∨ name = "sigmoid" ∨ name = "tanh" ∨ name = "fabs") := by
    intro hc
    rw [(intrinTable_contains name).2 hc] at h
    exact absurd h (by decide)
  push_neg at hx
  obtain ⟨h1, h2, h3, h4, h5⟩ := hx
  simp [deriv_succ, derivAux, h1, h2, h3, h4, h5]

theorem deriv_error_origin : ∀ (fuel : Nat) (ctx : DCtx) (e : Expr) (err : DError),
    deriv fuel ctx e = .error err →
    err = .fuelEx ∨ err = .unimpl ∨
      ∃ n, err = .unimplIntrin n ∧ intrinTable.contains n = false := by
  intro fuel
  induction fuel with
  | zero =>
      intro ctx e err h
      simp only [deriv] at h
      injection h with h
      exact Or.inl h.symm
  | succ fuel ih =>
      intro ctx e err h
      rw [deriv_succ] at h
      cases e with
      | var v =>
          rcases hw : ctx.wrt with _ | _ <;> simp [derivAux, hw] at h <;>
            split at h <;> simp at h
      | intImm ty v => simp [derivAux] at h
      | uintImm ty v => simp [derivAux] at h
      | floatImm ty v => simp [derivAux] at h
      | stringImm v => simp [derivAux] at h; exact Or.inr (Or.inl h.symm)
      | cast ty v =>
          simp only [derivAux] at h
          split at h
          · rcases bindE_error h with h1 | ⟨a, _, h2⟩
            · exact ih _ _ _ h1
            · simp at h2
          · simp at h
      | add a b =>
          simp only [derivAux] at h
          rcases bindE_error h with h1 | ⟨x, _, h2⟩
          · exact ih _ _ _ h1
          rcases bindE_error h2 with h3 | ⟨y, _, h4⟩
          · exact ih _ _ _ h3
          · simp at h4
      | sub a b =>
          simp only [derivAux] at h
          rcases bindE_error h with h1 | ⟨x, _, h2⟩
          · exact ih _ _ _ h1
          rcases bindE_error h2 with h3 | ⟨y, _, h4⟩
          · exact ih _ _ _ h3
          · simp at h4
      | mul a b =>
          simp only [derivAux] at h
          rcases bindE_error h with h1 | ⟨x, _, h2⟩
          · exact ih _ _ _ h1
          rcases bindE_error h2 with h3 | ⟨y, _, h4⟩
          · exact ih _ _ _ h3
          · simp at h4
      | div a b =>
          simp only [derivAux] at h
          rcases bindE_error h with h1 | ⟨x, _, h2⟩
          · exact ih _ _ _ h1
          rcases bindE_error h2 with h3 | ⟨y, _, h4⟩
          · exact ih _ _ _ h3
          · simp at h4
      | min a b =>
          simp only [derivAux] at h
          rcases bindE_error h with h1 | ⟨x, _, h2⟩
          · exact ih _ _ _ h1
          rcases bindE_error h2 with h3 | ⟨y, _, h4⟩
          · exact ih _ _ _ h3
          · simp at h4
      | max a b =>
          simp only [derivAux] at h
          rcases bindE_error h with h1 | ⟨x, _, h2⟩
          · exact ih _ _ _ h1
          rcases bindE_error h2 with h3 | ⟨y, _, h4⟩
          · exact ih _ _ _ h3
          · simp at h4
      | select c tv fv =>
          simp only [derivAux] at h
          rcases bindE_error h with h1 | ⟨x, _, h2⟩
          · exact ih _ _ _ h1
          rcases bindE_error h2 with h3 | ⟨y, _, h4⟩
          · exact ih _ _ _ h3
          · simp at h4
      | mod a b => simp [derivAux] at h; exact Or.inr (Or.inl h.symm)
      | eq a b => simp [derivAux] at h; exact Or.inr (Or.inl h.symm)
      | ne a b => simp [derivAux] at h; exact Or.inr (Or.inl h.symm)
      | lt a b => simp [derivAux] at h; exact Or.inr (Or.inl h.symm)
      | le a b => simp [derivAux] at h; exact Or.inr (Or.inl h.symm)
      | gt a b => simp [derivAux] at h; exact Or.inr (Or.inl h.symm)
      | ge a b => simp [derivAux] at h; exact Or.inr (Or.inl h.symm)
      | and a b => simp [derivAux] at h; exact Or.inr (Or.inl h.symm)
      | or a b => simp [derivAux] at h; exact Or.inr (Or.inl h.symm)
      | not a => simp [derivAux] at h; exact Or.inr (Or.inl h.symm)
      | ramp a b l => simp [derivAux] at h; exact Or.inr (Or.inl h.symm)
      | broadcast a l => simp [derivAux] at h; exact Or.inr (Or.inl h.symm)
      | load ty v i p => simp [derivAux] at h; exact Or.inr (Or.inl h.symm)
      | letE v a b => simp [derivAux] at h; exact Or.inr (Or.inl h.symm)
      | shuffle ty v i => simp [derivAux] at h; exact Or.inr (Or.inl h.symm)
      | call ty name args cty fid vi =>
          cases cty with
          | halide =>
              rcases hw : ctx.wrt with _ | _ <;> simp [derivAux, hw] at h
              split at h <;> simp at h
          | pureIntrinsic =>
              simp only [derivAux] at h
              by_cases h1 : name = "exp"
              · simp only [h1, if_pos rfl] at h
                rcases bindE_error h with hh | ⟨x, _, hh2⟩
                · exact ih _ _ _ hh
                · simp at hh2
              by_cases h2 : name = "log"
              · simp only [h1, h2, if_neg, if_pos rfl, reduceIte] at h
                rcases bindE_error h with hh | ⟨x, _, hh2⟩
                · exact ih _ _ _ hh
                · simp at hh2
              by_cases h3 : name = "sigmoid"
              · simp only [h1, h2, h3, reduceIte] at h
                rcases bindE_error h with hh | ⟨x, _, hh2⟩
                · exact ih _ _ _ hh
                · simp at hh2
              by_cases h4 : name = "tanh"
              · simp only [h1, h2, h3, h4, reduceIte] at h
                rcases bindE_error h with hh | ⟨x, _, hh2⟩
                · exact ih _ _ _ hh
                · simp at hh2
              by_cases h5 : name = "fabs"
              · simp only [h1, h2, h3, h4, h5, reduceIte] at h
                rcases bindE_error h with hh | ⟨x, _, hh2⟩
                · exact ih _ _ _ hh
                · simp at hh2
              · simp only [h1, h2, h3, h4, h5, reduceIte] at h
                injection h with h
                refine Or.inr (Or.inr ⟨name, h.symm, ?_⟩)
                have : ¬(name = "exp" ∨ name = "log" ∨ name = "sigmoid" ∨
                    name = "tanh" ∨ name = "fabs") := by tauto
                cases hc : intrinTable.contains name
                · rfl
                · exact absurd ((intrinTable_contains name).1 hc) this
          | externC => simp [derivAux] at h; exact Or.inr (Or.inl h.symm)
          | externCpp => simp [derivAux] at h; exact Or.inr (Or.inl h.symm)
          | pureExternC => simp [derivAux] at h; exact Or.inr (Or.inl h.symm)
          | intrinsic => simp [derivAux] at h; exact Or.inr (Or.inl h.symm)
      | reduce ty lhs rhs result identity source axis cond vi =>
          simp only [derivAux] at h
          rcases bindE_error h with h1 | ⟨x, _, h2⟩
          · obtain ⟨res, _, hres⟩ := mapEx_error h1
            simp only [combineDer] at hres
            rcases bindE_error hres with hr1 | ⟨s1, _, hr2⟩
            · obtain ⟨b', a', _, hfa⟩ := foldEx_error hr1
              rcases bindE_error hfa with hg | ⟨z, _, hz⟩
              · exact ih _ _ _ hg
              · simp at hz
            · obtain ⟨b', a', _, hfa⟩ := foldEx_error hr2
              rcases bindE_error hfa with hg | ⟨z, _, hz⟩
              · exact ih _ _ _ hg
              · simp at hz
          rcases bindE_error h2 with h3 | ⟨y, _, h4⟩
          · obtain ⟨a, _, ha⟩ := mapEx_error h3
            exact ih _ _ _ ha
          rcases bindE_error h4 with h5 | ⟨z, _, h6⟩
          · obtain ⟨a, _, ha⟩ := mapEx_error h5
            exact ih _ _ _ ha
          · simp at h6

/-!
Structural size of an expression, used to bound the recursion depth
of the mutator (`call` nodes count one extra so that the implicit
`args[0]` access of the intrinsic rules stays below the bound).
-/

mutual

def exprSize : Expr → Nat
  | .var _ => 1
  | .intImm _ _ => 1
  | .uintImm _ _ => 1
  | .floatImm _ _ => 1
  | .stringImm _ => 1
  | .cast _ v => exprSize v + 1
  | .add a b => exprSize a + exprSize b + 1
  | .sub a b => exprSize a + exprSize b + 1
  | .mul a b => exprSize a + exprSize b + 1
  | .div a b => exprSize a + exprSize b + 1
  | .mod a b => exprSize a + exprSize b + 1
  | .min a b => exprSize a + exprSize b + 1
  | .max a b => exprSize a + exprSize b + 1
  | .eq a b => exprSize a + exprSize b + 1
  | .ne a b => exprSize a + exprSize b + 1
  | .lt a b => exprSize a + exprSize b + 1
  | .le a b => exprSize a + exprSize b + 1
  | .gt a b => exprSize a + exprSize b + 1
  | .ge a b => exprSize a + exprSize b + 1
  | .and a b => exprSize a + exprSize b + 1
  | .or a b => exprSize a + exprSize b + 1
  | .not a => exprSize a + 1
  | .select c t f => exprSize c + exprSize t + exprSize f + 1
  | .call _ _ args _ _ _ => exprSizeList args + 2
  | .reduce _ _ _ result identity source _ cond _ =>
      exprSizeList result + exprSizeList identity + exprSizeList source + exprSize cond + 1
  | .ramp a b _ => exprSize a + exprSize b + 1
  | .broadcast a _ => exprSize a + 1
  | .load _ _ i p => exprSize i + exprSize p + 1
  | .letE _ v b => exprSize v + exprSize b + 1
  | .shuffle _ v i => exprSizeList v + exprSizeList i + 1

def exprSizeList : List Expr → Nat
  | [] => 0
  | e :: l => exprSize e + exprSizeList l

end

/-!
`allSupported`: the node kinds the mutator supports, restricted to the
paths it recurses into and excluding reductions: on such expressions
the mutator always succeeds.  `argSupported` looks at the first
argument of a call, the only one the intrinsic rules read.
-/

mutual

def allSupported : Expr → Bool
  | .var _ => true
  | .intImm _ _ => true
  | .uintImm _ _ => true
  | .floatImm _ _ => true
  | .cast _ v => allSupported v
  | .add a b => allSupported a && allSupported b
  | .sub a b => allSupported a && allSupported b
  | .mul a b => allSupported a && allSupported b
  | .div a b => allSupported a && allSupported b
  | .min a b => allSupported a && allSupported b
  | .max a b => allSupported a && allSupported b
  | .select _ t f => allSupported t && allSupported f
  | .call _ _ _ .halide _ _ => true
  | .call _ name args .pureIntrinsic _ _ => intrinTable.contains name && argSupported args
  | _ => false

def argSupported : List Expr → Bool
  | [] => true
  | a :: _ => allSupported a

end

theorem exprSize_pos (e : Expr) : 1 ≤ exprSize e := by
  cases e <;> (simp only [exprSize]; omega)

theorem exprSize_getD_le (args : List Expr) :
    exprSize (args.getD 0 dfltE) ≤ exprSizeList args + 1 := by
  cases args with
  | nil => simp [List.getD, exprSize, dfltE]
  | cons a l =>
      simp only [List.getD_cons_zero, exprSizeList]
      omega

theorem exists_ok_iff_isOk {α : Type} {m : Except DError α} :
    (∃ d, m = .ok d) ↔ m.isOk = true := by
  cases m <;> simp [Except.isOk, Except.toBool]

theorem deriv_total_supported : ∀ (fuel : Nat) (ctx : DCtx) (e : Expr),
    allSupported e = true → exprSize e ≤ fuel → ∃ d, deriv fuel ctx e = .ok d := by
  intro fuel
  induction fuel with
  | zero =>
      intro ctx e hs hb
      have := exprSize_pos e
      omega
  | succ fuel ih =>
      intro ctx e hs hb
      cases e with
      | var v =>
          rw [exists_ok_iff_isOk]
          rcases hw : ctx.wrt with v' | ik
          · by_cases hv : v' = v
            · simp [deriv_succ, derivAux, hw, hv, Except.isOk, Except.toBool]
            · simp [deriv_succ, derivAux, hw, hv, Except.isOk, Except.toBool]
          · simp [deriv_succ, derivAux, hw, Except.isOk, Except.toBool]
      | intImm ty v => exact ⟨_, rfl⟩
      | uintImm ty v => exact ⟨_, rfl⟩
      | floatImm ty v => exact ⟨_, rfl⟩
      | cast ty v =>
          simp only [allSupported] at hs
          simp only [exprSize] at hb
          rw [exists_ok_iff_isOk]
          by_cases hf : ty.isFloat
          · obtain ⟨d, hd⟩ := ih ctx v hs (by omega)
            simp [deriv_succ, derivAux, hf, hd, Bind.bind, Except.bind, Except.isOk,
              Except.toBool]
          · simp [deriv_succ, derivAux, hf, Except.isOk, Except.toBool]
      | add a b =>
          simp only [allSupported, Bool.and_eq_true] at hs
          simp only [exprSize] at hb
          obtain ⟨da, hda⟩ := ih ctx a hs.1 (by omega)
          obtain ⟨db, hdb⟩ := ih ctx b hs.2 (by omega)
          rw [exists_ok_iff_isOk]
          simp [deriv_succ, derivAux, hda, hdb, Bind.bind, Except.bind, Except.isOk,
            Except.toBool]
      | sub a b =>
          simp only [allSupported, Bool.and_eq_true] at hs
          simp only [exprSize] at hb
          obtain ⟨da, hda⟩ := ih ctx a hs.1 (by omega)
          obtain ⟨db, hdb⟩ := ih ctx b hs.2 (by omega)
          rw [exists_ok_iff_isOk]
          simp [deriv_succ, derivAux, hda, hdb, Bind.bind, Except.bind, Except.isOk,
            Except.toBool]
      | mul a b =>
          simp only [allSupported, Bool.and_eq_true] at hs
          simp only [exprSize] at hb
          obtain ⟨da, hda⟩ := ih ctx a hs.1 (by omega)
          obtain ⟨db, hdb⟩ := ih ctx b hs.2 (by omega)
          rw [exists_ok_iff_isOk]
          simp [deriv_succ, derivAux, hda, hdb, Bind.bind, Except.bind, Except.isOk,
            Except.toBool]
      | div a b =>
          simp only [allSupported, Bool.and_eq_true] at hs
          simp only [exprSize] at hb
          obtain ⟨da, hda⟩ := ih ctx a hs.1 (by omega)
          obtain ⟨db, hdb⟩ := ih ctx b hs.2 (by omega)
          rw [exists_ok_iff_isOk]
          simp [deriv_succ, derivAux, hda, hdb, Bind.bind, Except.bind, Except.isOk,
            Except.toBool]
      | min a b =>
          simp only [allSupported, Bool.and_eq_true] at hs
          simp only [exprSize] at hb
          obtain ⟨da, hda⟩ := ih ctx a hs.1 (by omega)
          obtain ⟨db, hdb⟩ := ih ctx b hs.2 (by omega)
          rw [exists_ok_iff_isOk]
          simp [deriv_succ, derivAux, hda, hdb, Bind.bind, Except.bind, Except.isOk,
            Except.toBool]
      | max a b =>
          simp only [allSupported, Bool.and_eq_true] at hs
          simp only [exprSize] at hb
          obtain ⟨da, hda⟩ := ih ctx a hs.1 (by omega)
          obtain ⟨db, hdb⟩ := ih ctx b hs.2 (by omega)
          rw [exists_ok_iff_isOk]
          simp [deriv_succ, derivAux, hda, hdb, Bind.bind, Except.bind, Except.isOk,
            Except.toBool]
      | select c t f =>
          simp only [allSupported, Bool.and_eq_true] at hs
          simp only [exprSize] at hb
          obtain ⟨dt, hdt⟩ := ih ctx t hs.1 (by omega)
          obtain ⟨df, hdf⟩ := ih ctx f hs.2 (by omega)
          rw [exists_ok_iff_isOk]
          simp [deriv_succ, derivAux, hdt, hdf, Bind.bind, Except.bind, Except.isOk,
            Except.toBool]
      | call ty name args cty fid vi =>
          cases cty with
          | halide =>
              rw [exists_ok_iff_isOk]
              rcases hw : ctx.wrt with v' | ik
              · simp [deriv_succ, derivAux, hw, Except.isOk, Except.toBool]
              · by_cases hm : fid = ik.funcId ∧ vi = ik.valueIndex
                · simp [deriv_succ, derivAux, hw, hm, Except.isOk, Except.toBool]
                · simp [deriv_succ, derivAux, hw, hm, Except.isOk, Except.toBool]
          | pureIntrinsic =>
              simp only [allSupported, Bool.and_eq_true] at hs
              simp only [exprSize] at hb
              have hsarg : allSupported (args.getD 0 dfltE) = true := by
                cases args with
                | nil => rfl
                | cons a l => simpa [argSupported] using hs.2
              have harg : exprSize (args.getD 0 dfltE) ≤ fuel := by
                have := exprSize_getD_le args
                omega
              obtain ⟨d, hd⟩ := ih ctx (args.getD 0 dfltE) hsarg harg
              simp only [List.getD, List.get?_eq_getElem?] at hd
              rw [exists_ok_iff_isOk]
              rcases (intrinTable_contains name).1 hs.1 with h | h | h | h | h <;>
                simp [deriv_succ, derivAux, h, hd, List.getD, Bind.bind, Except.bind,
                  Except.isOk, Except.toBool]
          | externC => simp [allSupported] at hs
          | externCpp => simp [allSupported] at hs
          | pureExternC => simp [allSupported] at hs
          | intrinsic => simp [allSupported] at hs
      | _ => simp_all [allSupported]

/-- C7 (amended): the scalar differentiator fails with the generic
unsupported-node error (one fixed message that does not name the node
kind) on every Load, Let, Mod, Not, Ramp, Broadcast, StringImm,
Shuffle, comparison or logical node and also on every Call node whose
call type is neither Halide nor PureIntrinsic; it fails with an
UnsupportedIntrinsic error carrying the intrinsic name on every
PureIntrinsic call whose name is not in the supported table
(exp, log, sigmoid, tanh, fabs); every failure of the differentiator
is of one of these two forms (apart from the embedding's
fuel-exhaustion artefact), and on reduction-free expressions built
solely from supported node kinds the differentiator succeeds given
enough fuel. -/
theorem c7_error_taxonomy :
    (∀ (fuel : Nat) (ctx : DCtx) (e : Expr), unsupportedKind e = true →
        deriv (fuel + 1) ctx e = .error .unimpl) ∧
    (∀ (fuel : Nat) (ctx : DCtx) (ty : DType) (name : String) (args : List Expr)
        (fid vi : Nat), intrinTable.contains name = false →
        deriv (fuel + 1) ctx (.call ty name args .pureIntrinsic fid vi)
          = .error (.unimplIntrin name)) ∧
    (∀ (fuel : Nat) (ctx : DCtx) (e : Expr) (err : DError),
        deriv fuel ctx e = .error err →
        err = .fuelEx ∨ err = .unimpl ∨
          ∃ n, err = .unimplIntrin n ∧ intrinTable.contains n = false) ∧
    (∀ (fuel : Nat) (ctx : DCtx) (e : Expr),
        allSupported e = true → exprSize e ≤ fuel → ∃ d, deriv fuel ctx e = .ok d) :=
  ⟨deriv_unsupported, deriv_unknown_intrinsic, deriv_error_origin, deriv_total_supported⟩

theorem c7_error_taxonomy_witness :
    deriv 3 ⟨.var ⟨"x", float32⟩, id, id⟩
        (Expr.mod (.var ⟨"x", float32⟩) (.var ⟨"y", float32⟩)) = .error .unimpl ∧
    deriv 3 ⟨.var ⟨"x", float32⟩, id, id⟩
        (Expr.call float32 "cos" [.var ⟨"x", float32⟩] .pureIntrinsic 0 0)
      = .error (.unimplIntrin "cos") ∧
    (∃ d, deriv 3 ⟨.var ⟨"x", float32⟩, id, id⟩
        (Expr.add (.var ⟨"x", float32⟩) (.var ⟨"y", float32⟩)) = .ok d) :=
  ⟨c7_error_taxonomy.1 2 _ _ (by rfl),
   c7_error_taxonomy.2.1 2 _ float32 "cos" _ 0 0 (by rfl),
   c7_error_taxonomy.2.2.2 3 _ _ (by rfl) (by decide)⟩

/-- C7 counterexample: a `Call` node whose call type is `Extern` is not
among the node kinds listed by the claim (`specUnsupportedKinds`
transcribes that list, and the node is not a PureIntrinsic call
either), yet the differentiator fails on it — refuting the claim's
"no other node kind causes a failure". -/
theorem c7_extern_call_counterexample :
    specUnsupportedKinds (Expr.call float32 "my_extern_fn" [] .externC 0 0) = false ∧
    deriv 1 ⟨.var ⟨"x", float32⟩, id, id⟩
        (Expr.call float32 "my_extern_fn" [] .externC 0 0) = .error .unimpl :=
  ⟨rfl, rfl⟩

/-! ### Type preservation of the scalar differentiator (claim C2) -/

/-- The external `SimplifyCombiner` preserves the type of its argument. -/
def simpCPreservesType (sC : Expr → Expr) : Prop :=
  ∀ e : Expr, (sC e).typeOf = e.typeOf

/-- The external `CloneReduction` renames reduction axes: it keeps the
value index, the types of the sources, and their well-typedness. -/
def clonePreserves (cR : RedData → RedData) : Prop :=
  ∀ r : RedData,
    (cR r).valueIndex = r.valueIndex ∧
    (cR r).source.map Expr.typeOf = r.source.map Expr.typeOf ∧
    (wellTypedList r.source = true → wellTypedList (cR r).source = true)

theorem typeOf_make_zero (t : DType) : (make_zero t).typeOf = t := by
  simp only [make_zero]
  split
  · rfl
  · split <;> rfl

theorem wellTypedList_getD :
    ∀ {l : List Expr}, wellTypedList l = true → ∀ i : Nat, wellTyped (l.getD i dfltE) = true := by
  intro l
  induction l with
  | nil => intro _ i; cases i <;> rfl
  | cons e l ih =>
      intro h i
      simp only [wellTypedList, Bool.and_eq_true] at h
      cases i with
      | zero => exact h.1
      | succ j => exact ih h.2 j

theorem getD_map_typeOf (l : List Expr) (i : Nat) :
    (l.map Expr.typeOf).getD i dfltE.typeOf = (l.getD i dfltE).typeOf := by
  induction l generalizing i with
  | nil => cases i <;> rfl
  | cons e l ih => cases i with
      | zero => rfl
      | succ j => simpa using ih j

theorem mapEx_ok_length {α β : Type} {f : α → Except DError β} :
    ∀ {l : List α} {l' : List β}, mapEx f l = .ok l' → l'.length = l.length := by
  intro l
  induction l with
  | nil =>
      intro l' h
      simp only [mapEx] at h
      injection h with h
      rw [← h]
      rfl
  | cons a l ih =>
      intro l' h
      simp only [mapEx] at h
      rcases bindE_ok h with ⟨b, hb, h2⟩
      rcases bindE_ok h2 with ⟨tl, htl, h3⟩
      injection h3 with h3
      rw [← h3]
      simpa using ih htl

theorem mapEx_ok_getD {α β : Type} {f : α → Except DError β} (da : α) (db : β) :
    ∀ {l : List α} {l' : List β}, mapEx f l = .ok l' →
      ∀ i, i < l.length → f (l.getD i da) = .ok (l'.getD i db) := by
  intro l
  induction l with
  | nil => intro l' _ i hi; simp at hi
  | cons a l ih =>
      intro l' h i hi
      simp only [mapEx] at h
      rcases bindE_ok h with ⟨b, hb, h2⟩
      rcases bindE_ok h2 with ⟨tl, htl, h3⟩
      injection h3 with h3
      rw [← h3]
      cases i with
      | zero => simpa using hb
      | succ j =>
          simp only [List.getD_cons_succ]
          exact ih htl j (by simpa using hi)

theorem getD_append_lt {l l' : List Expr} {i : Nat} (h : i < l.length) :
    (l ++ l').getD i dfltE = l.getD i dfltE := by
  simp [List.getD, List.getElem?_append_left h]

theorem deriv_preserves_type :
    ∀ (fuel : Nat) (cR : RedData → RedData) (sC : Expr → Expr),
      simpCPreservesType sC → clonePreserves cR →
      ∀ (w : Wrt) (e d : Expr), wellTyped e = true →
        deriv fuel ⟨w, cR, sC⟩ e = .ok d → d.typeOf = e.typeOf := by
  intro fuel
  induction fuel with
  | zero => intro cR sC _ _ w e d _ h; simp [deriv] at h
  | succ fuel ih =>
      intro cR sC hS hC w e d hwt h
      rw [deriv_succ] at h
      cases e with
      | var v =>
          cases w with
          | var u =>
              simp only [derivAux] at h
              split at h <;> injection h with h <;> rw [← h]
              · rfl
              · rw [typeOf_make_zero]; rfl
          | tensorEl ik idx =>
              simp only [derivAux] at h
              injection h with h
              rw [← h, typeOf_make_zero]
              rfl
      | intImm ty v => injection h with h; rw [← h]; rfl
      | uintImm ty v => injection h with h; rw [← h]; rfl
      | floatImm ty v => injection h with h; rw [← h]; rfl
      | stringImm v => simp [derivAux] at h
      | mod a b => simp [derivAux] at h
      | eq a b => simp [derivAux] at h
      | ne a b => simp [derivAux] at h
      | lt a b => simp [derivAux] at h
      | le a b => simp [derivAux] at h
      | gt a b => simp [derivAux] at h
      | ge a b => simp [derivAux] at h
      | and a b => simp [derivAux] at h
      | or a b => simp [derivAux] at h
      | not a => simp [derivAux] at h
      | ramp a b l => simp [derivAux] at h
      | broadcast a l => simp [derivAux] at h
      | load ty v i p => simp [derivAux] at h
      | letE v a b => simp [derivAux] at h
      | shuffle ty v i => simp [derivAux] at h
      | cast ty v =>
          simp only [derivAux] at h
          split at h
          · rcases bindE_ok h with ⟨dv, hdv, h2⟩
            injection h2 with h2
            rw [← h2]
            rfl
          · injection h with h
            rw [← h, typeOf_make_zero]
            rfl
      | add a b =>
          simp only [wellTyped, Bool.and_eq_true] at hwt
          simp only [derivAux] at h
          rcases bindE_ok h with ⟨da, hda, h2⟩
          rcases bindE_ok h2 with ⟨db, hdb, h3⟩
          injection h3 with h3
          rw [← h3]
          simpa [Expr.typeOf] using ih cR sC hS hC w a da hwt.1.2 hda
      | sub a b =>
          simp only [wellTyped, Bool.and_eq_true] at hwt
          simp only [derivAux] at h
          rcases bindE_ok h with ⟨da, hda, h2⟩
          rcases bindE_ok h2 with ⟨db, hdb, h3⟩
          injection h3 with h3
          rw [← h3]
          simpa [Expr.typeOf] using ih cR sC hS hC w a da hwt.1.2 hda
      | mul a b =>
          simp only [wellTyped, Bool.and_eq_true] at hwt
          simp only [derivAux] at h
          rcases bindE_ok h with ⟨da, hda, h2⟩
          rcases bindE_ok h2 with ⟨db, hdb, h3⟩
          injection h3 with h3
          rw [← h3]
          simpa [Expr.typeOf] using ih cR sC hS hC w a da hwt.1.2 hda
      | div a b =>
          simp only [wellTyped, Bool.and_eq_true] at hwt
          simp only [derivAux] at h
          rcases bindE_ok h with ⟨da, hda, h2⟩
          rcases bindE_ok h2 with ⟨db, hdb, h3⟩
          injection h3 with h3
          rw [← h3]
          simpa [Expr.typeOf] using ih cR sC hS hC w a da hwt.1.2 hda
      | min a b =>
          simp only [wellTyped, Bool.and_eq_true] at hwt
          simp only [derivAux] at h
          rcases bindE_ok h with ⟨da, hda, h2⟩
          rcases bindE_ok h2 with ⟨db, hdb, h3⟩
          injection h3 with h3
          rw [← h3]
          simpa [Expr.typeOf] using ih cR sC hS hC w a da hwt.1.2 hda
      | max a b =>
          simp only [wellTyped, Bool.and_eq_true] at hwt
          simp only [derivAux] at h
          rcases bindE_ok h with ⟨da, hda, h2⟩
          rcases bindE_ok h2 with ⟨db, hdb, h3⟩
          injection h3 with h3
          rw [← h3]
          simpa [Expr.typeOf] using ih cR sC hS hC w a da hwt.1.2 hda
      | select c tv fv =>
          simp only [wellTyped, Bool.and_eq_true] at hwt
          simp only [derivAux] at h
          rcases bindE_ok h with ⟨dt, hdt, h2⟩
          rcases bindE_ok h2 with ⟨df, hdf, h3⟩
          injection h3 with h3
          rw [← h3]
          simpa [Expr.typeOf] using ih cR sC hS hC w tv dt hwt.1.2 hdt
      | call ty name args cty fid vi =>
          cases cty with
          | externC => simp [derivAux] at h
          | externCpp => simp [derivAux] at h
          | pureExternC => simp [derivAux] at h
          | intrinsic => simp [derivAux] at h
          | halide =>
              cases w with
              | var u =>
                  simp only [derivAux] at h
                  injection h with h
                  rw [← h, typeOf_make_zero]
                  rfl
              | tensorEl ik idx =>
                  simp only [derivAux] at h
                  split at h <;> injection h with h <;> rw [← h]
                  · rfl
                  · rw [typeOf_make_zero]; rfl
          | pureIntrinsic =>
              have hcall := hwt
              simp only [wellTyped, Bool.and_eq_true] at hcall
              have hargwt : wellTyped (args.getD 0 dfltE) = true :=
                wellTypedList_getD hcall.1 0
              have hty' : intrinTable.contains name = true →
                  (args.getD 0 dfltE).typeOf = ty := by
                intro hctn
                have h0 := hcall.2
                rw [hctn] at h0
                simpa using h0
              simp only [derivAux] at h
              by_cases h1 : name = "exp"
              · simp only [h1, reduceIte] at h
                rcases bindE_ok h with ⟨dd, hdd, h6⟩
                injection h6 with h6
                rw [← h6]
                simp only [Expr.typeOf]
                rw [ih cR sC hS hC w _ dd hargwt hdd, hty' (by rw [h1]; decide)]
              · by_cases h2 : name = "log"
                · simp only [h1, h2, reduceIte] at h
                  rcases bindE_ok h with ⟨dd, hdd, h6⟩
                  injection h6 with h6
                  rw [← h6]
                  simp only [Expr.typeOf]
                  rw [ih cR sC hS hC w _ dd hargwt hdd, hty' (by rw [h2]; decide)]
                · by_cases h3 : name = "sigmoid"
                  · simp only [h1, h2, h3, reduceIte] at h
                    rcases bindE_ok h with ⟨dd, hdd, h6⟩
                    injection h6 with h6
                    rw [← h6]
                    simp only [Expr.typeOf]
                    rw [ih cR sC hS hC w _ dd hargwt hdd, hty' (by rw [h3]; decide)]
                  · by_cases h4 : name = "tanh"
                    · simp only [h1, h2, h3, h4, reduceIte] at h
                      rcases bindE_ok h with ⟨dd, hdd, h6⟩
                      injection h6 with h6
                      rw [← h6]
                      simp only [Expr.typeOf]
                      rw [ih cR sC hS hC w _ dd hargwt hdd, hty' (by rw [h4]; decide)]
                    · by_cases h5 : name = "fabs"
                      · simp only [h1, h2, h3, h4, h5, reduceIte] at h
                        rcases bindE_ok h with ⟨dd, hdd, h6⟩
                        injection h6 with h6
                        rw [← h6]
                        simp only [Expr.typeOf]
                        rw [ih cR sC hS hC w _ dd hargwt hdd, hty' (by rw [h5]; decide)]
                      · simp only [h1, h2, h3, h4, h5, reduceIte] at h
                        simp at h
      | reduce ty lhs rhs result identity source axis cond vi =>
          have hred := hwt
          simp only [wellTyped, Bool.and_eq_true, decide_eq_true_eq, beq_iff_eq] at hred
          obtain ⟨⟨⟨⟨⟨hvi, hty⟩, hwsrc⟩, hwres⟩, hwid⟩, hwcond⟩ := hred
          simp only [derivAux] at h
          rcases bindE_ok h with ⟨dres, hdres, h2⟩
          rcases bindE_ok h2 with ⟨dids, hdids, h3⟩
          rcases bindE_ok h3 with ⟨dsrcs, hdsrcs, h4⟩
          injection h4 with h4
          rw [← h4]
          obtain ⟨hcvi, hcmap, hcwt⟩ := hC ⟨lhs, rhs, result, identity, source, axis, cond, vi⟩
          have hlen : (cR ⟨lhs, rhs, result, identity, source, axis, cond, vi⟩).source.length
              = source.length := by
            have := congrArg List.length hcmap
            simpa using this
          have hdlen : dsrcs.length
              = (cR ⟨lhs, rhs, result, identity, source, axis, cond, vi⟩).source.length :=
            mapEx_ok_length hdsrcs
          rw [hS]
          simp only [mkReduce, Expr.typeOf]
          have hvid : vi < dsrcs.length := by omega
          rw [hcvi, getD_append_lt hvid]
          have hstep := mapEx_ok_getD dfltE dfltE hdsrcs vi (by omega)
          have hwsrc' := hcwt hwsrc
          have hargwt := wellTypedList_getD hwsrc' vi
          have hmap := ih cR sC hS hC w _ _ hargwt hstep
          rw [hmap]
          have h1 := getD_map_typeOf
            (cR ⟨lhs, rhs, result, identity, source, axis, cond, vi⟩).source vi
          have h2' := getD_map_typeOf source vi
          rw [hcmap] at h1
          rw [h2'] at h1
          rw [← h1]
          exact hty.symm

/-- C2: whenever the scalar differentiator succeeds on a well-typed
expression, the derivative has the same numeric type as the input
(given that the external `SimplifyCombiner` preserves types and
`CloneReduction` only renames reduction axes), and
integer/unsigned(boolean)/float immediates yield the exact zero
immediate of their declared type. -/
theorem c2_type_preservation :
    (∀ (fuel : Nat) (cR : RedData → RedData) (sC : Expr → Expr),
        simpCPreservesType sC → clonePreserves cR →
        ∀ (w : Wrt) (e d : Expr), wellTyped e = true →
          deriv fuel ⟨w, cR, sC⟩ e = .ok d → d.typeOf = e.typeOf) ∧
    (∀ (fuel : Nat) (ctx : DCtx) (ty : DType) (v : Int),
        deriv (fuel + 1) ctx (.intImm ty v) = .ok (.intImm ty 0)) ∧
    (∀ (fuel : Nat) (ctx : DCtx) (ty : DType) (v : Nat),
        deriv (fuel + 1) ctx (.uintImm ty v) = .ok (.uintImm ty 0)) ∧
    (∀ (fuel : Nat) (ctx : DCtx) (ty : DType) (v : Rat),
        deriv (fuel + 1) ctx (.floatImm ty v) = .ok (.floatImm ty 0)) :=
  ⟨deriv_preserves_type, fun _ _ _ _ => rfl, fun _ _ _ _ => rfl, fun _ _ _ _ => rfl⟩

theorem c2_type_preservation_witness :
    ∃ d, deriv 3 ⟨.var ⟨"x", float32⟩, id, id⟩
        (Expr.mul (.var ⟨"x", float32⟩) (.var ⟨"y", float32⟩)) = .ok d ∧
      d.typeOf = float32 ∧
      deriv 3 ⟨.var ⟨"x", float32⟩, id, id⟩ (Expr.intImm int32 7)
        = .ok (.intImm int32 0) := by
  refine ⟨_, rfl, ?_, c2_type_preservation.2.1 2 _ int32 7⟩
  exact c2_type_preservation.1 3 id id (fun _ => rfl)
    (fun r => ⟨rfl, rfl, fun h => h⟩) (.var ⟨"x", float32⟩)
    (Expr.mul (.var ⟨"x", float32⟩) (.var ⟨"y", float32⟩)) _ (by decide) rfl

/-! ### The paired-combiner reduction rule (claim C1) -/

theorem getD_append_lt' {α : Type} {l l' : List α} {i : Nat} (d : α) (h : i < l.length) :
    (l ++ l').getD i d = l.getD i d := by
  simp [List.getD, List.getElem?_append_left h]

theorem getD_map_lt {α β : Type} (f : α → β) :
    ∀ {l : List α} {j : Nat}, j < l.length → ∀ (d₀ : β) (d₁ : α),
      (l.map f).getD j d₀ = f (l.getD j d₁) := by
  intro l
  induction l with
  | nil => intro j h; simp at h
  | cons a l ih =>
      intro j h d₀ d₁
      cases j with
      | zero => rfl
      | succ i => exact ih (by simpa using h) d₀ d₁

theorem foldEx_append {α β : Type} {f : β → α → Except DError β} :
    ∀ (l₁ l₂ : List α) (b : β),
      foldEx f b (l₁ ++ l₂) = (foldEx f b l₁) >>= fun m => foldEx f m l₂ := by
  intro l₁
  induction l₁ with
  | nil => intro l₂ b; rfl
  | cons a l ih =>
      intro l₂ b
      simp only [List.cons_append, foldEx]
      cases f b a with
      | error e => simp [Bind.bind, Except.bind]
      | ok b' => simp [Bind.bind, Except.bind, ih]

theorem foldEx_single {α β : Type} (f : β → α → Except DError β) (b : β) (a : α) :
    foldEx f b [a] = f b a := by
  simp only [foldEx]
  cases f b a <;> simp [Bind.bind, Except.bind, foldEx]

theorem foldEx_range_ok {f : Expr → Nat → Except DError Expr}
    {g : Nat → Except DError Expr} {h2 : Expr → Nat → Expr → Expr}
    (hf : ∀ acc i, f acc i = (g i) >>= fun dv => .ok (h2 acc i dv)) :
    ∀ (n : Nat) (seed s : Expr), foldEx f seed (List.range n) = .ok s →
      ∃ dF : Nat → Expr, (∀ i, i < n → g i = .ok (dF i)) ∧
        s = (List.range n).foldl (fun acc i => h2 acc i (dF i)) seed := by
  intro n
  induction n with
  | zero =>
      intro seed s h
      simp only [List.range_zero, foldEx] at h
      injection h with h
      refine ⟨fun _ => dfltE, fun i hi => by omega, ?_⟩
      rw [List.range_zero, List.foldl_nil, ← h]
  | succ n ih =>
      intro seed s h
      rw [List.range_succ, foldEx_append] at h
      rcases bindE_ok h with ⟨m, hm, h2e⟩
      replace h2e : foldEx f m [n] = .ok s := h2e
      rw [foldEx_single, hf] at h2e
      rcases bindE_ok h2e with ⟨dv, hdv, h3⟩
      injection h3 with h3
      obtain ⟨dF, hdF, hmval⟩ := ih seed m hm
      refine ⟨fun i => if i = n then dv else dF i, ?_, ?_⟩
      · intro i hi
        show g i = .ok (if i = n then dv else dF i)
        by_cases hin : i = n
        · rw [if_pos hin, hin]
          exact hdv
        · rw [if_neg hin]
          exact hdF i (by omega)
      · show s = List.foldl (fun acc i => h2 acc i (if i = n then dv else dF i))
          seed (List.range (n + 1))
        rw [List.range_succ, List.foldl_append]
        simp only [List.foldl_cons, List.foldl_nil, if_pos rfl]
        rw [← h3, hmval]
        congr 1
        apply List.foldl_ext
        intro acc i hi
        have hne : i ≠ n := by
          have := List.mem_range.1 hi
          omega
        rw [if_neg hne]

theorem combineDer_ok {fuel : Nat} {ctx : DCtx} {r' : RedData}
    {newLhs newRhs : List Var} {res dr : Expr}
    (h : combineDer (deriv fuel) ctx r' newLhs newRhs res = .ok dr) :
    ∃ dL dR : Nat → Expr,
      (∀ j, j < r'.lhs.length →
        deriv fuel ⟨.var (r'.lhs.getD j dfltVar), ctx.cloneR, ctx.simpC⟩ res = .ok (dL j)) ∧
      (∀ j, j < r'.rhs.length →
        deriv fuel ⟨.var (r'.rhs.getD j dfltVar), ctx.cloneR, ctx.simpC⟩ res = .ok (dR j)) ∧
      dr = (List.range r'.rhs.length).foldl
             (fun acc j => .add acc (.mul (.var (newRhs.getD j dfltVar)) (dR j)))
             ((List.range r'.lhs.length).foldl
               (fun acc j => .add acc (.mul (.var (newLhs.getD j dfltVar)) (dL j)))
               (make_zero res.typeOf)) := by
  simp only [combineDer] at h
  rcases bindE_ok h with ⟨s1, hs1, h2⟩
  obtain ⟨dL, hdL, hs1val⟩ := foldEx_range_ok (fun acc i => rfl) _ _ _ hs1
  obtain ⟨dR, hdR, hval⟩ := foldEx_range_ok (fun acc i => rfl) _ _ _ h2
  exact ⟨dL, dR, hdL, hdR, by rw [hval, hs1val]⟩

/-- The property claim C1 states about the derivative of a `Reduce`
node, phrased on the cloned reduction data `r'` (the mutator first
clones the reduction axes): the result is the combiner simplifier
applied to a `Reduce` over the cloned axes whose combiner has doubled
arity, whose lhs/rhs variable lists are the ".der"-suffixed copies
followed by the originals, whose first `k` results are the chains
`Σ_j lhs'_j · Derivative(result_i, lhs_j) + Σ_j rhs'_j ·
Derivative(result_i, rhs_j)` (left folds started at a zero of the
result's type), whose last `k` results are the original results, and
whose identities and sources are the element-wise derivatives followed
by the originals, keeping the cloned condition and value index. -/
def ReducePaired (fuel : Nat) (ctx : DCtx) (r' : RedData) (d : Expr) : Prop :=
  ∃ dres dids dsrcs : List Expr,
    (r'.lhs.map (fun v => copyWithSuffix v ".der") ++ r'.lhs).length
      = 2 * r'.lhs.length ∧
    (r'.rhs.map (fun v => copyWithSuffix v ".der") ++ r'.rhs).length
      = 2 * r'.rhs.length ∧
    List.Forall₂ (fun res dr =>
        ∃ dL dR : Nat → Expr,
          (∀ j, j < r'.lhs.length →
            DerivativeF ctx.cloneR ctx.simpC fuel res (r'.lhs.getD j dfltVar)
              = .ok (dL j)) ∧
          (∀ j, j < r'.rhs.length →
            DerivativeF ctx.cloneR ctx.simpC fuel res (r'.rhs.getD j dfltVar)
              = .ok (dR j)) ∧
          dr = (List.range r'.rhs.length).foldl
                 (fun acc j => .add acc
                   (.mul (.var (copyWithSuffix (r'.rhs.getD j dfltVar) ".der")) (dR j)))
                 ((List.range r'.lhs.length).foldl
                   (fun acc j => .add acc
                     (.mul (.var (copyWithSuffix (r'.lhs.getD j dfltVar) ".der")) (dL j)))
                   (make_zero res.typeOf)))
      r'.result dres ∧
    List.Forall₂ (fun idn di => deriv fuel ctx idn = .ok di) r'.identity dids ∧
    List.Forall₂ (fun src ds => deriv fuel ctx src = .ok ds) r'.source dsrcs ∧
    d = ctx.simpC (mkReduce
          (r'.lhs.map (fun v => copyWithSuffix v ".der") ++ r'.lhs)
          (r'.rhs.map (fun v => copyWithSuffix v ".der") ++ r'.rhs)
          (dres ++ r'.result) (dids ++ r'.identity)
          (dsrcs ++ r'.source) r'.axis r'.cond r'.valueIndex)

/-- C1: a successful derivative of a `Reduce` node always has the
paired-combiner shape stated by the claim (`ReducePaired`), relative
to the clone of the reduction produced by `CloneReduction`. -/
theorem c1_reduce_rule :
    ∀ (fuel : Nat) (ctx : DCtx) (ty : DType) (lhs rhs : List Var)
      (result identity source : List Expr) (axis : List (Var × Expr × Expr))
      (cond : Expr) (vi : Nat) (d : Expr),
      deriv (fuel + 1) ctx (.reduce ty lhs rhs result identity source axis cond vi)
        = .ok d →
      ReducePaired fuel ctx
        (ctx.cloneR ⟨lhs, rhs, result, identity, source, axis, cond, vi⟩) d := by
  intro fuel ctx ty lhs rhs result identity source axis cond vi d h
  rw [deriv_succ] at h
  simp only [derivAux] at h
  set c := ctx.cloneR ⟨lhs, rhs, result, identity, source, axis, cond, vi⟩ with hcdef
  rcases bindE_ok h with ⟨dres, hdres, h2⟩
  rcases bindE_ok h2 with ⟨dids, hdids, h3⟩
  rcases bindE_ok h3 with ⟨dsrcs, hdsrcs, h4⟩
  injection h4 with h4
  refine ⟨dres, dids, dsrcs, by simp [two_mul], by simp [two_mul], ?_,
    mapEx_ok hdids, mapEx_ok hdsrcs, h4.symm⟩
  have hres := mapEx_ok hdres
  refine List.Forall₂.imp ?_ hres
  intro res dr hcd
  obtain ⟨dL, dR, hdL, hdR, hval⟩ := combineDer_ok hcd
  refine ⟨dL, dR, hdL, hdR, ?_⟩
  rw [hval]
  have hinner : (List.range c.lhs.length).foldl
      (fun acc j => Expr.add acc (.mul (.var
        ((c.lhs.map (fun v => copyWithSuffix v ".der") ++ c.lhs).getD j dfltVar)) (dL j)))
      (make_zero res.typeOf)
    = (List.range c.lhs.length).foldl
      (fun acc j => Expr.add acc (.mul (.var
        (copyWithSuffix (c.lhs.getD j dfltVar) ".der")) (dL j)))
      (make_zero res.typeOf) := by
    apply List.foldl_ext
    intro acc j hj
    have hjl := List.mem_range.1 hj
    rw [getD_append_lt' dfltVar (by simpa using hjl), getD_map_lt _ hjl dfltVar dfltVar]
  rw [hinner]
  apply List.foldl_ext
  intro acc j hj
  have hjl := List.mem_range.1 hj
  rw [getD_append_lt' dfltVar (by simpa using hjl), getD_map_lt _ hjl dfltVar dfltVar]

/-- A concrete variable-mode mutator context with identity collaborators. -/
def idWrtX : DCtx := ⟨.var ⟨"x", float32⟩, id, id⟩

/-- A concrete reduction: combiner `(lhs=[a], rhs=[b], result=[a+b],
identity=[0.0])` over source `x·x` (the `S5` scenario of the spec). -/
def redDataW : RedData :=
  ⟨[⟨"a", float32⟩], [⟨"b", float32⟩],
   [.add (.var ⟨"a", float32⟩) (.var ⟨"b", float32⟩)], [.floatImm float32 0],
   [.mul (.var ⟨"x", float32⟩) (.var ⟨"x", float32⟩)],
   [(⟨"k", int32⟩, .intImm int32 0, .intImm int32 4)], .uintImm boolType 1, 0⟩

theorem c1_reduce_rule_witness :
    ∃ d, deriv 6 idWrtX (.reduce float32 redDataW.lhs redDataW.rhs redDataW.result
        redDataW.identity redDataW.source redDataW.axis redDataW.cond
        redDataW.valueIndex) = .ok d ∧
      ReducePaired 5 idWrtX (idWrtX.cloneR redDataW) d :=
  ⟨_, rfl, c1_reduce_rule 5 idWrtX float32 redDataW.lhs redDataW.rhs redDataW.result
    redDataW.identity redDataW.source redDataW.axis redDataW.cond
    redDataW.valueIndex _ rfl⟩

/-! ### Semantic tensors, `generalized_matmul` (autodiff.cc:337-378)
and the identity head (autodiff.cc:412-424) -/

/-- A tensor, modelled semantically: a shape, an element type and the
value of the element at each index vector (rational numbers stand for
the real-valued semantics of the scalar language). -/
structure SemTensor where
  shape : List Nat
  dtype : DType
  val : List Nat → Rat

/-- Iterated sum over nested reduction ranges: `sumOver [n₁, …, nₖ] f`
is `Σ_{i₁<n₁} … Σ_{iₖ<nₖ} f [i₁, …, iₖ]` — the semantics of
`tvm::sum` over `k` reduction axes. -/
def sumOver : List Nat → (List Nat → Rat) → Rat
  | [], f => f []
  | n :: ns, f =>
      (List.range n).foldl (fun acc i => acc + sumOver ns (fun r => f (i :: r))) 0

/-- The failure of the two `CHECK_GE` rank checks of
`generalized_matmul`. -/
inductive GmErr where
  | rankMismatch
deriving DecidableEq, Repr

/-- Output of `generalized_matmul`, with the tensor and the fact of
whether a reduction was emitted (`iter_vars` nonempty). -/
structure GmOut where
  tensor : SemTensor
  usedReduction : Bool

/-- `generalized_matmul(A, B, ndims_to_reduce)` (autodiff.cc:337-378):
after the two rank checks, the output shape is `A.shape[:-k] ++
B.shape[k:]`; `k` reduction axes are created with ranges `B.shape[:k]`;
the body indexes `A` with the leading output indices followed by the
reduction indices and `B` with the reduction indices followed by the
trailing output indices; when there are no reduction axes a plain
product is emitted instead of a `sum`. -/
def generalized_matmul (A B : SemTensor) (k : Nat) : Except GmErr GmOut :=
  if A.shape.length < k then .error .rankMismatch
  else if B.shape.length < k then .error .rankMismatch
  else
    let outputShape := A.shape.take (A.shape.length - k) ++ B.shape.drop k
    let ranges := B.shape.take k
    let body : List Nat → List Nat → Rat := fun inputIndices r =>
      A.val (inputIndices.take (A.shape.length - k) ++ r)
        * B.val (r ++ inputIndices.drop (A.shape.length - k))
    .ok { tensor :=
            { shape := outputShape
              dtype := A.dtype
              val := fun idx => if k = 0 then body idx [] else sumOver ranges (body idx) }
          usedReduction := !(k == 0) }

/-- C3: for tensors of rank at least `k`, `generalized_matmul`
succeeds, its output shape is `A.shape[:rank(A)-k] ++ B.shape[k:]`,
its element at `i ++ j` is the sum over the `k` reduction indices `r`
(ranging over `B.shape[:k]`) of `A[i, r] · B[r, j]`, and for `k = 0`
the body is a plain elementwise product with no reduction axes. -/
theorem c3_generalized_matmul :
    ∀ (A B : SemTensor) (k : Nat), k ≤ A.shape.length → k ≤ B.shape.length →
      ∃ out, generalized_matmul A B k = .ok out ∧
        out.tensor.shape = A.shape.take (A.shape.length - k) ++ B.shape.drop k ∧
        (∀ i j : List Nat, i.length = A.shape.length - k →
          out.tensor.val (i ++ j)
            = sumOver (B.shape.take k) (fun r => A.val (i ++ r) * B.val (r ++ j))) ∧
        (k = 0 → out.usedReduction = false ∧
          ∀ i j : List Nat, i.length = A.shape.length →
            out.tensor.val (i ++ j) = A.val i * B.val j) := by
  intro A B k hA hB
  have hout : generalized_matmul A B k = .ok
      { tensor := { shape := A.shape.take (A.shape.length - k) ++ B.shape.drop k
                    dtype := A.dtype
                    val := fun idx => if k = 0
                      then A.val (idx.take (A.shape.length - k) ++ [])
                            * B.val ([] ++ idx.drop (A.shape.length - k))
                      else sumOver (B.shape.take k) fun r =>
                            A.val (idx.take (A.shape.length - k) ++ r)
                              * B.val (r ++ idx.drop (A.shape.length - k)) }
        usedReduction := !(k == 0) } := by
    simp only [generalized_matmul]
    rw [if_neg (by omega), if_neg (by omega)]
  have hval : ∀ i j : List Nat, i.length = A.shape.length - k →
      (if k = 0
        then A.val ((i ++ j).take (A.shape.length - k) ++ [])
              * B.val ([] ++ (i ++ j).drop (A.shape.length - k))
        else sumOver (B.shape.take k) fun r =>
              A.val ((i ++ j).take (A.shape.length - k) ++ r)
                * B.val (r ++ (i ++ j).drop (A.shape.length - k)))
        = sumOver (B.shape.take k) (fun r => A.val (i ++ r) * B.val (r ++ j)) := by
    intro i j hi
    have htake : (i ++ j).take (A.shape.length - k) = i := by
      rw [← hi]
      exact List.take_left i j
    have hdrop : (i ++ j).drop (A.shape.length - k) = j := by
      rw [← hi]
      exact List.drop_left i j
    by_cases hk : k = 0
    · subst hk
      rw [if_pos rfl, htake, hdrop]
      simp [sumOver]
    · rw [if_neg hk]
      simp only [htake, hdrop]
  refine ⟨_, hout, rfl, hval, ?_⟩
  intro hk
  subst hk
  refine ⟨rfl, ?_⟩
  intro i j hi
  have h0 := hval i j (by omega)
  refine Eq.trans h0 ?_
  simp [sumOver]

theorem c3_generalized_matmul_witness :
    ∃ out, generalized_matmul ⟨[2, 3], float32, fun _ => 1⟩
        ⟨[3, 4], float32, fun _ => 1⟩ 1 = .ok out ∧
      out.tensor.shape = [2, 4] ∧
      out.tensor.val [1, 2] = 3 := by
  obtain ⟨out, h1, h2, h3, _⟩ := c3_generalized_matmul
    ⟨[2, 3], float32, fun _ => 1⟩ ⟨[3, 4], float32, fun _ => 1⟩ 1
    (by decide) (by decide)
  refine ⟨out, h1, by simpa using h2, ?_⟩
  have hv := h3 [1] [2] (by decide)
  simp only [List.cons_append, List.nil_append] at hv
  rw [hv]
  show sumOver [3] (fun _ => 1 * 1) = 3
  simp [sumOver, List.range_succ]
  norm_num

/-- C6 (amended): `generalized_matmul` fails with the rank-mismatch
check exactly when `k` exceeds the rank of one of the operands, and
succeeds otherwise — in particular it does not inspect, and never
rejects, mismatched contracted shapes. -/
theorem c6_rank_check :
    ∀ (A B : SemTensor) (k : Nat),
      (generalized_matmul A B k = .error .rankMismatch
        ↔ A.shape.length < k ∨ B.shape.length < k) ∧
      ((∃ out, generalized_matmul A B k = .ok out)
        ↔ k ≤ A.shape.length ∧ k ≤ B.shape.length) := by
  intro A B k
  constructor
  · constructor
    · intro h
      by_contra hc
      push_neg at hc
      simp only [generalized_matmul, if_neg (by omega : ¬A.shape.length < k),
        if_neg (by omega : ¬B.shape.length < k)] at h
      exact Except.noConfusion h
    · intro h
      simp only [generalized_matmul]
      rcases Nat.lt_or_ge A.shape.length k with h1 | h1
      · rw [if_pos h1]
      · rw [if_neg (by omega), if_pos (by omega)]
  · constructor
    · rintro ⟨out, h⟩
      by_contra hc
      rw [Decidable.not_and_iff_or_not] at hc
      simp only [generalized_matmul] at h
      rcases hc with hc | hc
      · rw [if_pos (by omega)] at h
        exact Except.noConfusion h
      · rcases Nat.lt_or_ge A.shape.length k with h1 | h1
        · rw [if_pos h1] at h
          exact Except.noConfusion h
        · rw [if_neg (by omega), if_pos (by omega)] at h
          exact Except.noConfusion h
    · rintro ⟨h1, h2⟩
      simp only [generalized_matmul]
      rw [if_neg (by omega), if_neg (by omega)]
      exact ⟨_, rfl⟩

/-- C6 counterexample: with `A : [2]`, `B : [3]`, `k = 1` the
contracted shapes disagree (`A.shape[-1:] = [2] ≠ [3] = B.shape[:1]`),
yet `generalized_matmul` succeeds — the claim's "fails whenever the
contracted shapes disagree" is false: only the two rank checks exist. -/
theorem c6_counterexample :
    (([2] : List Nat).drop (1 - 1) ≠ ([3] : List Nat).take 1) ∧
    ∃ out, generalized_matmul ⟨[2], float32, fun _ => 0⟩ ⟨[3], float32, fun _ => 0⟩ 1
      = .ok out :=
  ⟨by decide, ⟨_, rfl⟩⟩

/-- The boolean condition built by the default-head lambda of
`Differentiate` (autodiff.cc:417-423): starting from `true`, conjoin
`input_indices[i] == input_indices[rank + i]` for each `i < rank`. -/
def identityCond (n : Nat) (idx : List Nat) : Bool :=
  (List.range n).foldl (fun acc i => acc && (idx.getD i 0 == idx.getD (n + i) 0)) true

/-- The default head (autodiff.cc:412-424): when `Differentiate` is
called with a null head it builds `tvm::compute` over shape
`output.shape ++ output.shape` whose element is the identity condition
cast to `output.dtype` (`1` when true, `0` when false). -/
def defaultHead (outputShape : List Nat) (dtype : DType) : SemTensor :=
  { shape := outputShape ++ outputShape
    dtype := dtype
    val := fun idx => if identityCond outputShape.length idx then 1 else 0 }

theorem foldl_and_eq_all (p : Nat → Bool) :
    ∀ (l : List Nat) (b : Bool), l.foldl (fun acc i => acc && p i) b = (b && l.all p) := by
  intro l
  induction l with
  | nil => intro b; simp
  | cons a l ih =>
      intro b
      simp only [List.foldl_cons, List.all_cons, ih, Bool.and_assoc]

theorem getD_append_right_nat (i j : List Nat) (t : Nat) :
    (i ++ j).getD (i.length + t) 0 = j.getD t 0 := by
  induction i with
  | nil => simp
  | cons a l ih =>
      simp only [List.cons_append, List.length_cons]
      rw [show l.length + 1 + t = (l.length + t) + 1 by omega, List.getD_cons_succ]
      exact ih

theorem identityCond_append {n : Nat} {i j : List Nat}
    (hi : i.length = n) (hj : j.length = n) :
    (identityCond n (i ++ j) = true) ↔ i = j := by
  unfold identityCond
  rw [foldl_and_eq_all, Bool.true_and, List.all_eq_true]
  constructor
  · intro hall
    apply List.ext_getElem (by omega)
    intro t h1 h2
    have ht := hall t (List.mem_range.2 (by omega))
    rw [getD_append_lt' 0 (by omega)] at ht
    rw [show n + t = i.length + t by omega, getD_append_right_nat] at ht
    have := beq_iff_eq.1 ht
    rwa [List.getD_eq_getElem i 0 (by omega), List.getD_eq_getElem j 0 (by omega)] at this
  · intro hij t hmem
    have ht := List.mem_range.1 hmem
    rw [getD_append_lt' 0 (by omega),
      show n + t = i.length + t by omega, getD_append_right_nat, hij]
    exact beq_self_eq_true _

/-- C5: the default head used when `Differentiate` receives a null
head is the identity tensor: it has shape `output.shape ++
output.shape`, carries `output.dtype`, and its element at `(i…, j…)`
is `1` when `i…` equals `j…` pointwise and `0` otherwise. -/
theorem c5_default_head :
    ∀ (outputShape : List Nat) (dtype : DType),
      (defaultHead outputShape dtype).shape = outputShape ++ outputShape ∧
      (defaultHead outputShape dtype).dtype = dtype ∧
      ∀ i j : List Nat, i.length = outputShape.length → j.length = outputShape.length →
        (defaultHead outputShape dtype).val (i ++ j) = if i = j then 1 else 0 := by
  intro outputShape dtype
  refine ⟨rfl, rfl, ?_⟩
  intro i j hi hj
  show (if identityCond outputShape.length (i ++ j) then (1 : Rat) else 0)
    = if i = j then 1 else 0
  by_cases hij : i = j
  · rw [if_pos hij, if_pos ((identityCond_append hi hj).2 hij)]
  · rw [if_neg hij]
    have : identityCond outputShape.length (i ++ j) = false := by
      cases hc : identityCond outputShape.length (i ++ j)
      · rfl
      · exact absurd ((identityCond_append hi hj).1 hc) hij
    rw [this]
    simp

theorem c5_default_head_witness :
    (defaultHead [2, 2] float32).shape = [2, 2, 2, 2] ∧
    (defaultHead [2, 2] float32).val [1, 0, 1, 0] = 1 ∧
    (defaultHead [2, 2] float32).val [1, 0, 0, 1] = 0 := by
  obtain ⟨h1, _, h3⟩ := c5_default_head [2, 2] float32
  refine ⟨by simpa using h1, ?_, ?_⟩
  · have := h3 [1, 0] [1, 0] (by decide) (by decide)
    simpa using this
  · have := h3 [1, 0] [0, 1] (by decide) (by decide)
    simpa using this

/-! ### The reverse-mode driver `Differentiate` (autodiff.cc:406-509) -/

/-- A tensor of the compute graph, identified (like the C++ `Tensor`
handles used as map keys) by its node identity. -/
abbrev TId := Nat

/-- What one `Differentiate` call sees of the graph: for each tensor,
whether its op is a `ComputeOp` and, if so, the sub-tensors of the
body selected by its value index (the result of the external
`Subtensors`), plus the tensor's shape and dtype.  The per-edge
function `fdiff` and the element-wise `topi::add` are parameters. -/
structure DiffCtx where
  compute : TId → Option (List TId)
  shape : TId → List Nat
  dtype : TId → DType
  fdiff : TId → TId → SemTensor → SemTensor
  addFn : SemTensor → SemTensor → SemTensor

/-- Lookup in an association list (the model of the driver's
`unordered_map`s; C++ tensor keys compare by node identity). -/
def alook {β : Type} : List (TId × β) → TId → Option β
  | [], _ => none
  | (k, v) :: l, t => if k = t then some v else alook l t

abbrev RMap := List (TId × List TId)

/-- `reverse_dependencies[child].push_back(tensor)`, creating the
entry when absent. -/
def rAppend : RMap → TId → TId → RMap
  | [], c, t => [(c, [t])]
  | (k, l) :: rest, c, t =>
      if k = c then (k, l ++ [t]) :: rest else (k, l) :: rAppend rest c t

/-- `reverse_dependencies[tensor]` as read by `compute_adjoint` (an
absent entry reads as the default-constructed empty vector). -/
def rdepsOf (m : RMap) (t : TId) : List TId := (alook m t).getD []

/-- One pop's inner loop (autodiff.cc:438-442): for each sub-tensor of
the popped tensor, push it if it has no reverse-dependency entry yet,
then append the popped tensor to its reverse-dependency list.  The
third component traces every stack push. -/
def rdChildren (t : TId) : List TId → (List TId × RMap × List TId) →
    (List TId × RMap × List TId)
  | [], acc => acc
  | c :: cs, (stack, m, pushes) =>
      let pushed := (alook m c).isNone
      let stack' := if pushed then c :: stack else stack
      let m' := rAppend m c t
      let pushes' := if pushed then pushes ++ [c] else pushes
      rdChildren t cs (stack', m', pushes')

/-- The reverse-dependency collection loop (autodiff.cc:432-444),
instrumented with the push trace and the trace of tensors whose
sub-tensors were collected. -/
def rdLoop (ctx : DiffCtx) : Nat → List TId → RMap → List TId → List TId →
    Option (RMap × List TId × List TId)
  | 0, _, _, _, _ => none
  | _ + 1, [], m, pushes, collects => some (m, pushes, collects)
  | fuel + 1, t :: rest, m, pushes, collects =>
      match ctx.compute t with
      | none => rdLoop ctx fuel rest m pushes collects
      | some children =>
          let s := rdChildren t children (rest, m, pushes)
          rdLoop ctx fuel s.1 s.2.1 s.2.2 (collects ++ [t])

/-- State of one `Differentiate` call: the `adjoints` and `summands`
maps, plus two traces — the tensors whose adjoint was actually
computed (`sessions`) and the `(consumer, producer)` pairs `fdiff` was
invoked on (`edges`). -/
structure DState where
  adjoints : List (TId × SemTensor)
  summands : List (TId × List (TId × SemTensor))
  sessions : List TId
  edges : List (TId × TId)

/-- `Map<Tensor, Tensor>::Set` — insert or overwrite. -/
def setk : List (TId × SemTensor) → TId → SemTensor → List (TId × SemTensor)
  | [], d, p => [(d, p)]
  | (k, v) :: rest, d, p =>
      if k = d then (k, p) :: rest else (k, v) :: setk rest d p

/-- `summands[tensor].Set(dep, part)`, creating the inner map when the
entry was null (autodiff.cc:480-485). -/
def sumSet : List (TId × List (TId × SemTensor)) → TId → TId → SemTensor →
    List (TId × List (TId × SemTensor))
  | [], t, d, p => [(t, [(d, p)])]
  | (k, l) :: rest, t, d, p =>
      if k = t then (k, setk l d p) :: rest else (k, l) :: sumSet rest t d p

/-- The zero adjoint of a tensor with no reverse dependencies
(autodiff.cc:464-471): `topi::full` of shape
`head.shape[:-rank(output)] ++ tensor.shape` filled with
`make_zero(output->dtype)`. -/
def zeroAdjoint (ctx : DiffCtx) (head : SemTensor) (output t : TId) : SemTensor :=
  { shape := head.shape.take (head.shape.length - (ctx.shape output).length)
              ++ ctx.shape t
    dtype := ctx.dtype output
    val := fun _ => 0 }

/-- The accumulation loop over the reverse dependencies
(autodiff.cc:476-486): for each consumer, recursively obtain its
adjoint, call `fdiff`, fold the parts with `topi::add` (first part
taken as-is), and record the summand and the invocation. -/
def adjLoop (ctx : DiffCtx) (ca : TId → DState → Option (SemTensor × DState)) (t : TId) :
    List TId → Option SemTensor → DState → Option (Option SemTensor × DState)
  | [], acc, s => some (acc, s)
  | d :: ds, acc, s =>
      match ca d s with
      | none => none
      | some (ad, s1) =>
          let part := ctx.fdiff d t ad
          let acc' := some (match acc with
            | none => part
            | some r => ctx.addFn r part)
          adjLoop ctx ca t ds acc'
            { s1 with
              edges := s1.edges ++ [(d, t)]
              summands := sumSet s1.summands t d part }

/-- The memoized recursive adjoint computation `compute_adjoint`
(autodiff.cc:456-494), with fuel bounding the recursion depth. -/
def computeAdjoint (ctx : DiffCtx) (rd : RMap) (output : TId) (head : SemTensor) :
    Nat → TId → DState → Option (SemTensor × DState)
  | 0, _, _ => none
  | fuel + 1, t, s =>
      match alook s.adjoints t with
      | some a => some (a, s)
      | none =>
          if rdepsOf rd t = [] then
            let z := zeroAdjoint ctx head output t
            some (z, { s with adjoints := s.adjoints ++ [(t, z)]
                              sessions := s.sessions ++ [t] })
          else
            match adjLoop ctx (computeAdjoint ctx rd output head fuel) t (rdepsOf rd t)
                none { s with sessions := s.sessions ++ [t] } with
            | none => none
            | some (none, _) => none
            | some (some res, s1) =>
                some (res, { s1 with adjoints := s1.adjoints ++ [(t, res)] })

/-- `for (dep : reverse_dependencies) compute_adjoint(dep.first)` —
the debugging pass over every discovered tensor when `inputs` is
empty (autodiff.cc:500-502). -/
def runAll (ca : TId → DState → Option (SemTensor × DState)) :
    List TId → DState → Option DState
  | [], s => some s
  | t :: ts, s =>
      match ca t s with
      | none => none
      | some (_, s1) => runAll ca ts s1

/-- `for (input : inputs) result.push_back(compute_adjoint(input))`
(autodiff.cc:505-506). -/
def runInputs (ca : TId → DState → Option (SemTensor × DState)) :
    List TId → DState → Option (List SemTensor × DState)
  | [], s => some ([], s)
  | t :: ts, s =>
      match ca t s with
      | none => none
      | some (a, s1) =>
          match runInputs ca ts s1 with
          | none => none
          | some (rest, s2) => some (a :: rest, s2)

/-- The (instrumented) result of one `Differentiate` call: the result
list and the two maps of `DifferentiationResult`, plus the computed
reverse-dependency map and the four traces, exposed for
verification. -/
structure DOut where
  result : List SemTensor
  adjoints : List (TId × SemTensor)
  summands : List (TId × List (TId × SemTensor))
  rdeps : RMap
  pushes : List TId
  collects : List TId
  sessions : List TId
  edges : List (TId × TId)

/-- `Differentiate(output, inputs, head, fdiff)` (autodiff.cc:406-509):
build the identity head when the given head is null, collect reverse
dependencies from a stack seeded with `output`, seed
`adjoints[output] = head`, compute the adjoint of every discovered
tensor when `inputs` is empty, then the adjoint of each input. -/
def differentiate (ctx : DiffCtx) (output : TId) (inputs : List TId)
    (headOpt : Option SemTensor) (fuel : Nat) : Option DOut :=
  let head := headOpt.getD (defaultHead (ctx.shape output) (ctx.dtype output))
  match rdLoop ctx fuel [output] [] [output] [] with
  | none => none
  | some (rd, pushes, collects) =>
      let ca := computeAdjoint ctx rd output head fuel
      let s0 : DState := ⟨[(output, head)], [], [], []⟩
      let keys := if inputs.isEmpty then rd.map (fun kv => kv.1) else []
      match runAll ca keys s0 with
      | none => none
      | some s1 =>
          match runInputs ca inputs s1 with
          | none => none
          | some (result, s2) =>
              some ⟨result, s2.adjoints, s2.summands, rd, pushes, collects,
                    s2.sessions, s2.edges⟩

/-- Monadic map over `Option`. -/
def mapO {α β : Type} (f : α → Option β) : List α → Option (List β)
  | [] => some []
  | a :: l =>
      match f a with
      | none => none
      | some b =>
          match mapO f l with
          | none => none
          | some l' => some (b :: l')

/-- Fold the per-consumer contribution list with `topi::add`, the
first part taken as-is. -/
def combineParts (addFn : SemTensor → SemTensor → SemTensor) :
    Option (List SemTensor) → Option SemTensor
  | none => none
  | some [] => none
  | some (p :: ps) => some (ps.foldl addFn p)

/-- One step of the memo-free specification of `compute_adjoint`. -/
def pureAdjAux (ctx : DiffCtx) (rd : RMap) (output : TId) (head : SemTensor)
    (recur : TId → Option SemTensor) (t : TId) : Option SemTensor :=
  if t = output then some head
  else if rdepsOf rd t = [] then some (zeroAdjoint ctx head output t)
  else combineParts ctx.addFn
    (mapO (fun dep => (recur dep).map (fun ad => ctx.fdiff dep t ad)) (rdepsOf rd t))

/-- The memo-free specification: the adjoint of `output` is the head;
a tensor without consumers gets the zero adjoint; otherwise the
contributions `fdiff(dep, t, adjoint dep)` are folded left-to-right
with `topi::add` in the order of `rdeps[t]`. -/
def pureAdj (ctx : DiffCtx) (rd : RMap) (output : TId) (head : SemTensor) :
    Nat → TId → Option SemTensor
  | 0, _ => none
  | fuel + 1, t => pureAdjAux ctx rd output head (pureAdj ctx rd output head fuel) t

/-! ### The tensor-level Jacobian (autodiff.cc:248-319) -/

/-- A `ComputeOpNode`: name, tag, iteration axes and one body
expression per output. -/
structure ComputeOpJ where
  name : String
  tag : String
  axes : List (Var × Expr × Expr)
  body : List Expr

/-- The op of a tensor: either a `ComputeOpNode` or any other kind of
operation (placeholders, externs, …), on which the tensor-level
Jacobian is not implemented. -/
inductive OpJ where
  | computeOp (c : ComputeOpJ)
  | otherOp (tag : String)

/-- A tensor handle as used by the tensor-level `Jacobian`: the op, the
node identity of the op, the value index, the shape and the dtype. -/
structure TensorJ where
  opK : OpJ
  opId : Nat
  valueIndex : Nat
  shape : List Expr
  dtype : DType

/-- The external collaborators of the tensor-level Jacobian. -/
structure JExt where
  substitute : List (Var × Expr) → Expr → Expr
  simplify : Expr → Expr
  optimizeLift : TensorJ → TensorJ

/-- `Jacobian(output, input, optimize)` (autodiff.cc:248-319): on a
`ComputeOp`, clone the iteration axes, generate one fresh `jac_i<n>`
iteration variable per input dimension, differentiate the substituted
body with the scalar mutator, simplify, split a reduction body into
one body per component, build the `.jacobian` compute op with shape
`output.shape ++ input.shape`, and optionally run the nonzero-lifting
pass; on any other op, `NOT_IMPLEMENTED`. -/
def jacobianT (ext : JExt) (cloneR : RedData → RedData) (simpC : Expr → Expr)
    (fuel : Nat) (output input : TensorJ) (optimize : Bool) (newOpId : Nat) :
    Except DError TensorJ :=
  match output.opK with
  | .computeOp c =>
      let newAxis0 := c.axes.map (fun av => (copyWithSuffix av.1 "", av.2.1, av.2.2))
      let vmap := (c.axes.zip newAxis0).map (fun p => (p.1.1, Expr.var p.2.1))
      let inputIters := input.shape.enum.map
        (fun p => (Var.mk ("jac_i" ++ toString p.1) int32, Expr.intImm int32 0, p.2))
      let newAxis := newAxis0 ++ inputIters
      let inputItersE : List Expr := inputIters.map (fun av => Expr.var av.1)
      do
        let newBody0 ← deriv fuel
          ⟨.tensorEl ⟨input.opId, input.valueIndex, input.shape.length⟩ inputItersE,
            cloneR, simpC⟩
          (ext.substitute vmap (c.body.getD output.valueIndex dfltE))
        let newBody := ext.simplify newBody0
        let vb : Nat × List Expr :=
          match newBody with
          | .reduce _ lhs rhs result identity source axis cond rvi =>
              (rvi, (List.range source.length).map
                (fun i => mkReduce lhs rhs result identity source axis cond i))
          | _ => (0, [newBody])
        let newOp : ComputeOpJ := ⟨c.name ++ ".jacobian", c.tag, newAxis, vb.2⟩
        let tensor : TensorJ :=
          ⟨.computeOp newOp, newOpId, vb.1, output.shape ++ input.shape, output.dtype⟩
        .ok (if optimize then ext.optimizeLift tensor else tensor)
  | .otherOp _ => .error .unimpl

/-! ### Claim C10: a non-ComputeOp output in `Differentiate` -/

theorem alook_append_left {β : Type} {l : List (TId × β)} (l' : List (TId × β))
    {u : TId} {v : β} (h : alook l u = some v) : alook (l ++ l') u = some v := by
  induction l with
  | nil => simp [alook] at h
  | cons kv rest ih =>
      obtain ⟨k, w⟩ := kv
      simp only [alook, List.cons_append] at h ⊢
      split at h
      · rw [if_pos (by assumption)]
        exact h
      · rw [if_neg (by assumption)]
        exact ih h

theorem alook_append_none {β : Type} {l : List (TId × β)} (l' : List (TId × β))
    {u : TId} (h : alook l u = none) : alook (l ++ l') u = alook l' u := by
  induction l with
  | nil => rfl
  | cons kv rest ih =>
      obtain ⟨k, w⟩ := kv
      simp only [alook, List.cons_append] at h ⊢
      split at h
      · exact absurd h (by simp)
      · rw [if_neg (by assumption)]
        exact ih h

theorem alook_append_single {β : Type} {l : List (TId × β)} {t u : TId} {z v : β}
    (h : alook (l ++ [(t, z)]) u = some v) :
    alook l u = some v ∨ (u = t ∧ v = z ∧ alook l u = none) := by
  cases hl : alook l u with
  | some w =>
      left
      rw [alook_append_left _ hl] at h
      exact h
  | none =>
      right
      rw [alook_append_none _ hl] at h
      simp only [alook] at h
      split at h
      next hq =>
        injection h with h
        exact ⟨hq.symm, h.symm, rfl⟩
      next => exact absurd h (by simp)

theorem ca_empty_rd (ctx : DiffCtx) (output : TId) (head : SemTensor)
    (fuel : Nat) (t : TId) (s : DState) :
    computeAdjoint ctx [] output head (fuel + 1) t s =
      match alook s.adjoints t with
      | some a => some (a, s)
      | none => some (zeroAdjoint ctx head output t,
          { s with adjoints := s.adjoints ++ [(t, zeroAdjoint ctx head output t)]
                   sessions := s.sessions ++ [t] }) := by
  cases h : alook s.adjoints t <;>
    simp [computeAdjoint, h, rdepsOf, alook]

/-- The adjoints-map invariant of a run over an empty
reverse-dependency map. -/
def ZInv (ctx : DiffCtx) (output : TId) (head : SemTensor) (s : DState) : Prop :=
  alook s.adjoints output = some head ∧
  ∀ u v, alook s.adjoints u = some v →
    u = output ∨ v = zeroAdjoint ctx head output u

theorem runInputs_empty_rd (ctx : DiffCtx) (output : TId) (head : SemTensor)
    (fuel : Nat) :
    ∀ (inputs : List TId) (s : DState), ZInv ctx output head s →
      ∃ res s', runInputs (computeAdjoint ctx [] output head (fuel + 1)) inputs s
          = some (res, s') ∧
        ZInv ctx output head s' ∧
        (∀ u v, alook s.adjoints u = some v → alook s'.adjoints u = some v) ∧
        ∀ T ∈ inputs, (alook s'.adjoints T).isSome := by
  intro inputs
  induction inputs with
  | nil =>
      intro s hz
      exact ⟨[], s, rfl, hz, fun u v h => h, by simp⟩
  | cons t ts ih =>
      intro s hz
      have hca := ca_empty_rd ctx output head fuel t s
      cases hl : alook s.adjoints t with
      | some a =>
          simp only [hl] at hca
          obtain ⟨res, s', hrun, hz', hmono, hmem⟩ := ih s hz
          refine ⟨a :: res, s', ?_, hz', hmono, ?_⟩
          · simp only [runInputs, hca, hrun]
          · intro T hT
            rcases List.mem_cons.1 hT with rfl | hT
            · simp [hmono _ _ hl]
            · exact hmem T hT
      | none =>
          simp only [hl] at hca
          have hz1 : ZInv ctx output head
              { s with adjoints := s.adjoints ++ [(t, zeroAdjoint ctx head output t)]
                       sessions := s.sessions ++ [t] } := by
            constructor
            · exact alook_append_left _ hz.1
            · intro u v h
              rcases alook_append_single h with h1 | ⟨rfl, rfl, _⟩
              · exact hz.2 u v h1
              · exact Or.inr rfl
          obtain ⟨res, s', hrun, hz', hmono, hmem⟩ := ih _ hz1
          refine ⟨zeroAdjoint ctx head output t :: res, s', ?_, hz', ?_, ?_⟩
          · simp only [runInputs, hca, hrun]
          · intro u v h
            exact hmono u v (alook_append_left _ h)
          · intro T hT
            rcases List.mem_cons.1 hT with rfl | hT
            · have hT1 : alook (s.adjoints ++ [(T, zeroAdjoint ctx head output T)]) T
                  = some (zeroAdjoint ctx head output T) := by
                rw [alook_append_none _ hl]
                simp [alook]
              simp [hmono _ _ hT1]
            · exact hmem T hT

/-- C10: when the output tensor's op is not a `ComputeOp`,
`Differentiate` does not fail: the reverse-dependency map stays
empty, with no inputs the adjoint map holds exactly `output ↦ head`,
and every requested input other than `output` receives the zero
adjoint of shape `head.shape[:rank(head)-rank(output)] ++ input.shape`
and dtype `output.dtype` — unlike the tensor-level `Jacobian`, which
fails on a non-ComputeOp output. -/
theorem c10_non_compute_output :
    (∀ (ext : JExt) (cloneR : RedData → RedData) (simpC : Expr → Expr) (fuel : Nat)
        (output input : TensorJ) (optimize : Bool) (newOpId : Nat) (tag : String),
        output.opK = .otherOp tag →
        jacobianT ext cloneR simpC fuel output input optimize newOpId
          = .error .unimpl) ∧
    (∀ (ctx : DiffCtx) (output : TId) (inputs : List TId)
        (headOpt : Option SemTensor) (fuel : Nat),
        ctx.compute output = none → 2 ≤ fuel →
        ∃ out, differentiate ctx output inputs headOpt fuel = some out ∧
          out.rdeps = [] ∧
          (inputs = [] → out.adjoints =
            [(output, headOpt.getD (defaultHead (ctx.shape output) (ctx.dtype output)))]) ∧
          ∀ T ∈ inputs, T ≠ output →
            alook out.adjoints T = some (zeroAdjoint ctx
              (headOpt.getD (defaultHead (ctx.shape output) (ctx.dtype output)))
              output T)) := by
  constructor
  · intro ext cloneR simpC fuel output input optimize newOpId tag h
    simp [jacobianT, h]
  · intro ctx output inputs headOpt fuel hnc hfuel
    obtain ⟨f, rfl⟩ : ∃ f, fuel = f + 2 := ⟨fuel - 2, by omega⟩
    set head := headOpt.getD (defaultHead (ctx.shape output) (ctx.dtype output)) with hh
    have hrd : rdLoop ctx (f + 2) [output] [] [output] []
        = some ([], [output], []) := by
      simp [rdLoop, hnc]
    have hs0 : ZInv ctx output head ⟨[(output, head)], [], [], []⟩ := by
      constructor
      · simp [alook]
      · intro u v h
        simp only [alook] at h
        split at h
        next hq => exact Or.inl hq.symm
        next => exact absurd h (by simp)
    obtain ⟨res, s', hrun, hz', hmono, hmem⟩ :=
      runInputs_empty_rd ctx output head (f + 1) inputs ⟨[(output, head)], [], [], []⟩ hs0
    have hout : differentiate ctx output inputs headOpt (f + 2)
        = some ⟨res, s'.adjoints, s'.summands, [], [output], [], s'.sessions, s'.edges⟩ := by
      simp only [differentiate, hrd, List.map_nil, ite_self, runAll, ← hh, hrun]
    refine ⟨_, hout, rfl, ?_, ?_⟩
    · intro hinp
      subst hinp
      simp only [runInputs] at hrun
      injection hrun with hrun
      injection hrun with h1 h2
      show s'.adjoints = [(output, head)]
      rw [← h2]
    · intro T hT hTo
      have hsome := hmem T hT
      cases hv : alook s'.adjoints T with
      | none => rw [hv] at hsome; simp at hsome
      | some v =>
          rcases hz'.2 T v hv with h1 | h1
          · exact absurd h1 hTo
          · exact congrArg some h1

/-- A concrete graph context whose every tensor is a non-ComputeOp. -/
def noComputeCtx : DiffCtx :=
  ⟨fun _ => none, fun _ => [2], fun _ => float32, fun _ _ a => a, fun a _ => a⟩

theorem c10_non_compute_output_witness :
    jacobianT ⟨fun _ e => e, id, id⟩ id id 1
        ⟨.otherOp "placeholder", 0, 0, [], float32⟩
        ⟨.otherOp "placeholder2", 1, 0, [], float32⟩ true 5 = .error .unimpl ∧
    ∃ out, differentiate noComputeCtx 0 [1] none 2 = some out ∧
      out.rdeps = [] ∧
      alook out.adjoints 1
        = some (zeroAdjoint noComputeCtx (defaultHead [2] float32) 0 1) := by
  refine ⟨c10_non_compute_output.1 ⟨fun _ e => e, id, id⟩ id id 1
    ⟨.otherOp "placeholder", 0, 0, [], float32⟩
    ⟨.otherOp "placeholder2", 1, 0, [], float32⟩ true 5 "placeholder" rfl, ?_⟩
  obtain ⟨out, h1, h2, _, h4⟩ := c10_non_compute_output.2
    noComputeCtx 0 [1] none 2 rfl (by decide)
  exact ⟨out, h1, h2, h4 1 (by simp) (by decide)⟩

/-! ### Correspondence with the memo-free specification -/

/-- The adjoints map is consistent: `output` is mapped to `head` and
every stored adjoint agrees with the memo-free specification. -/
def GoodState (ctx : DiffCtx) (rd : RMap) (output : TId) (head : SemTensor)
    (s : DState) : Prop :=
  alook s.adjoints output = some head ∧
  ∀ u v, alook s.adjoints u = some v →
    ∃ f, pureAdj ctx rd output head f u = some v

/-- The adjoints map is closed under reverse dependencies: the
consumers of every stored non-output tensor with consumers are stored
as well. -/
def ClosedState (ctx : DiffCtx) (rd : RMap) (s : DState) : Prop :=
  ∀ u, (alook s.adjoints u).isSome = true →
    ∀ d ∈ rdepsOf rd u, (alook s.adjoints d).isSome = true

theorem mapO_congr_some {α β : Type} {f g : α → Option β} :
    ∀ {l : List α} {l' : List β},
      (∀ a ∈ l, ∀ b, f a = some b → g a = some b) →
      mapO f l = some l' → mapO g l = some l' := by
  intro l
  induction l with
  | nil => intro l' _ h; exact h
  | cons a as ih =>
      intro l' hfg h
      simp only [mapO] at h ⊢
      cases hfa : f a with
      | none => rw [hfa] at h; exact absurd h (by simp)
      | some b =>
          rw [hfa] at h
          rw [hfg a (by simp) b hfa]
          cases hrest : mapO f as with
          | none => rw [hrest] at h; exact absurd h (by simp)
          | some l'' =>
              rw [hrest] at h
              rw [ih (fun x hx => hfg x (by simp [hx])) hrest]
              exact h

theorem pureAdj_mono (ctx : DiffCtx) (rd : RMap) (output : TId) (head : SemTensor) :
    ∀ (f f' : Nat), f ≤ f' → ∀ (t : TId) (a : SemTensor),
      pureAdj ctx rd output head f t = some a →
      pureAdj ctx rd output head f' t = some a := by
  intro f
  induction f with
  | zero => intro f' _ t a h; simp [pureAdj] at h
  | succ f ih =>
      intro f' hle t a h
      obtain ⟨f'', rfl⟩ : ∃ f'', f' = f'' + 1 := ⟨f' - 1, by omega⟩
      simp only [pureAdj, pureAdjAux] at h ⊢
      by_cases hto : t = output
      · rw [if_pos hto] at h ⊢
        exact h
      · rw [if_neg hto] at h ⊢
        by_cases hdeps : rdepsOf rd t = []
        · rw [if_pos hdeps] at h ⊢
          exact h
        · rw [if_neg hdeps] at h ⊢
          cases hm : mapO (fun dep => (pureAdj ctx rd output head f dep).map
              (fun ad => ctx.fdiff dep t ad)) (rdepsOf rd t) with
          | none =>
              rw [hm] at h
              exact absurd h (by simp [combineParts])
          | some parts =>
              rw [hm] at h
              have hm' := mapO_congr_some (f := fun dep =>
                  (pureAdj ctx rd output head f dep).map (fun ad => ctx.fdiff dep t ad))
                (g := fun dep => (pureAdj ctx rd output head f'' dep).map
                  (fun ad => ctx.fdiff dep t ad))
                (fun dep _ b hb => by
                  rcases Option.map_eq_some'.1 hb with ⟨ad, had, hval⟩
                  show Option.map (fun ad => ctx.fdiff dep t ad)
                    (pureAdj ctx rd output head f'' dep) = some b
                  rw [ih f'' (by omega) dep ad had]
                  simpa using hval) hm
              rw [hm']
              exact h

theorem pureAdj_uniq (ctx : DiffCtx) (rd : RMap) (output : TId) (head : SemTensor)
    {f f' : Nat} {t : TId} {a a' : SemTensor}
    (h : pureAdj ctx rd output head f t = some a)
    (h' : pureAdj ctx rd output head f' t = some a') : a = a' := by
  have h1 := pureAdj_mono ctx rd output head f (f + f') (by omega) t a h
  have h2 := pureAdj_mono ctx rd output head f' (f + f') (by omega) t a' h'
  rw [h1] at h2
  injection h2 with h2

theorem sumSet_isSome :
    ∀ (m : List (TId × List (TId × SemTensor))) (t d : TId) (p : SemTensor) (u : TId),
      (alook (sumSet m t d p) u).isSome = true ↔
        (alook m u).isSome = true ∨ u = t := by
  intro m t d p
  induction m with
  | nil =>
      intro u
      simp only [sumSet, alook]
      constructor
      · intro h
        split at h
        next hq => exact Or.inr hq.symm
        next => simp at h
      · intro h
        rcases h with h | rfl
        · simp [alook] at h
        · simp
  | cons kv rest ih =>
      intro u
      obtain ⟨k, l⟩ := kv
      simp only [sumSet]
      by_cases hk : k = t
      · rw [if_pos hk]
        simp only [alook]
        by_cases hku : k = u
        · simp [hku]
        · rw [if_neg hku, if_neg hku]
          constructor
          · exact Or.inl
          · intro h
            rcases h with h | rfl
            · exact h
            · exact absurd hk hku
      · rw [if_neg hk]
        simp only [alook]
        by_cases hku : k = u
        · simp [hku]
        · rw [if_neg hku, if_neg hku]
          exact ih u

theorem optFold_some (addFn : SemTensor → SemTensor → SemTensor) :
    ∀ (ps : List SemTensor) (x : SemTensor),
      ps.foldl (fun o q => some (match o with
        | none => q
        | some rr => addFn rr q)) (some x)
        = some (ps.foldl addFn x) := by
  intro ps
  induction ps with
  | nil => intro x; rfl
  | cons q qs ih => intro x; simpa using ih (addFn x q)

/-- The post-condition of one `compute_adjoint` call on tensor `t`:
the adjoints map only grows, stays consistent with the memo-free
specification, new entries and new sessions stay at rank at most
`rank t`, the session trace grows by a duplicate-free block of
previously-uncomputed tensors whose `fdiff`-edge trace is a
permutation of one full consumer list per new session, new summand
entries belong to tensors with consumers, the computed tensor is
stored, and the returned adjoint agrees with the specification. -/
def CAPost (ctx : DiffCtx) (rd : RMap) (output : TId) (head : SemTensor)
    (rank : TId → Nat) (t : TId) (s : DState) (a : SemTensor) (s' : DState) : Prop :=
  (∀ u v, alook s.adjoints u = some v → alook s'.adjoints u = some v) ∧
  GoodState ctx rd output head s' ∧
  (∀ u v, alook s'.adjoints u = some v →
    alook s.adjoints u = some v ∨ rank u ≤ rank t) ∧
  (∃ Δs Δe, s'.sessions = s.sessions ++ Δs ∧ s'.edges = s.edges ++ Δe ∧
    Δs.Nodup ∧
    (∀ u ∈ Δs, alook s.adjoints u = none ∧ (alook s'.adjoints u).isSome = true ∧
      rank u ≤ rank t) ∧
    Δe.Perm (Δs.map (fun u => (rdepsOf rd u).map (fun d => (d, u)))).flatten) ∧
  (∀ u, (alook s'.summands u).isSome = true →
    (alook s.summands u).isSome = true ∨ rdepsOf rd u ≠ []) ∧
  alook s'.adjoints t = some a ∧
  (∃ f, pureAdj ctx rd output head f t = some a)

/-- The post-condition of the accumulation loop for the open session
on `t`, running over the consumer list `l`. -/
def ALPost (ctx : DiffCtx) (rd : RMap) (output : TId) (head : SemTensor)
    (rank : TId → Nat) (t : TId) (l : List TId) (acc : Option SemTensor) (s : DState)
    (r : Option SemTensor) (s' : DState) : Prop :=
  (∀ u v, alook s.adjoints u = some v → alook s'.adjoints u = some v) ∧
  GoodState ctx rd output head s' ∧
  (∀ u v, alook s'.adjoints u = some v →
    alook s.adjoints u = some v ∨ rank u < rank t) ∧
  (∃ Δs Δe, s'.sessions = s.sessions ++ Δs ∧ s'.edges = s.edges ++ Δe ∧
    Δs.Nodup ∧
    (∀ u ∈ Δs, alook s.adjoints u = none ∧ (alook s'.adjoints u).isSome = true ∧
      rank u < rank t) ∧
    Δe.Perm ((l.map (fun d => (d, t))) ++
      (Δs.map (fun u => (rdepsOf rd u).map (fun d => (d, u)))).flatten)) ∧
  (∀ u, (alook s'.summands u).isSome = true →
    (alook s.summands u).isSome = true ∨ u = t ∨ rdepsOf rd u ≠ []) ∧
  (∃ parts : List SemTensor,
    List.Forall₂ (fun d p => ∃ f ad, pureAdj ctx rd output head f d = some ad ∧
      p = ctx.fdiff d t ad) l parts ∧
    r = parts.foldl (fun o q => some (match o with
      | none => q
      | some rr => ctx.addFn rr q)) acc)

theorem adjLoop_spec (ctx : DiffCtx) (rd : RMap) (output : TId) (head : SemTensor)
    (rank : TId → Nat) (fuel : Nat)
    (HCA : ∀ (t : TId) (s : DState) (a : SemTensor) (s' : DState),
      computeAdjoint ctx rd output head fuel t s = some (a, s') →
      GoodState ctx rd output head s →
      CAPost ctx rd output head rank t s a s') :
    ∀ (l : List TId) (t : TId) (acc : Option SemTensor) (s : DState)
      (r : Option SemTensor) (s' : DState),
      (∀ d ∈ l, rank d < rank t) →
      adjLoop ctx (computeAdjoint ctx rd output head fuel) t l acc s = some (r, s') →
      GoodState ctx rd output head s →
      ALPost ctx rd output head rank t l acc s r s' := by
  intro l
  induction l with
  | nil =>
      intro t acc s r s' _ h hg
      simp only [adjLoop] at h
      injection h with h
      injection h with h1 h2
      subst h1
      subst h2
      refine ⟨fun u v hv => hv, hg, fun u v hv => Or.inl hv,
        ⟨[], [], by simp, by simp, by simp, by simp, by simp⟩,
        fun u hu => Or.inl hu, ⟨[], List.Forall₂.nil, rfl⟩⟩
  | cons d ds ih =>
      intro t acc s r s' hl h hg
      simp only [adjLoop] at h
      cases hca : computeAdjoint ctx rd output head fuel d s with
      | none => rw [hca] at h; exact absurd h (by simp)
      | some pr =>
          obtain ⟨ad, s1⟩ := pr
          rw [hca] at h
          obtain ⟨m1, g1, n1, ⟨Δs1, Δe1, hsess1, hedge1, hnd1, hmem1, hperm1⟩,
            hsum1, hself1, f1, hpure1⟩ := HCA d s ad s1 hca hg
          have hg2 : GoodState ctx rd output head
              { s1 with
                edges := s1.edges ++ [(d, t)]
                summands := sumSet s1.summands t d (ctx.fdiff d t ad) } := g1
          obtain ⟨m2, g2, n2, ⟨Δs2, Δe2, hsess2, hedge2, hnd2, hmem2, hperm2⟩,
            hsum2, parts2, hf2, hr2⟩ :=
            ih t _ _ r s' (fun x hx => hl x (by simp [hx])) h hg2
          have hdrank : rank d < rank t := hl d (by simp)
          refine ⟨?_, g2, ?_, ?_, ?_, ?_⟩
          · intro u v hv
            exact m2 u v (m1 u v hv)
          · intro u v hv
            rcases n2 u v hv with hv1 | hlt
            · rcases n1 u v hv1 with hv0 | hle
              · exact Or.inl hv0
              · exact Or.inr (by omega)
            · exact Or.inr hlt
          · refine ⟨Δs1 ++ Δs2, Δe1 ++ ((d, t) :: Δe2), ?_, ?_, ?_, ?_, ?_⟩
            · rw [hsess2]
              show s1.sessions ++ Δs2 = s.sessions ++ (Δs1 ++ Δs2)
              rw [hsess1, List.append_assoc]
            · rw [hedge2]
              show (s1.edges ++ [(d, t)]) ++ Δe2 = s.edges ++ (Δe1 ++ ((d, t) :: Δe2))
              rw [hedge1]
              simp [List.append_assoc]
            · refine List.Nodup.append hnd1 hnd2 ?_
              intro u hu1 hu2
              have h1 := (hmem1 u hu1).2.1
              have h2 : alook s1.adjoints u = none := (hmem2 u hu2).1
              rcases Option.isSome_iff_exists.1 h1 with ⟨v, hv⟩
              rw [hv] at h2
              exact Option.noConfusion h2
            · intro u hu
              rcases List.mem_append.1 hu with hu1 | hu2
              · obtain ⟨hnone, hsome, hle⟩ := hmem1 u hu1
                rcases Option.isSome_iff_exists.1 hsome with ⟨v, hv⟩
                have hv2 : alook s'.adjoints u = some v := m2 u v hv
                exact ⟨hnone, by rw [hv2]; rfl, by omega⟩
              · obtain ⟨hnone', hsome, hlt⟩ := hmem2 u hu2
                have hnone : alook s1.adjoints u = none := hnone'
                refine ⟨?_, hsome, hlt⟩
                cases hv : alook s.adjoints u with
                | none => rfl
                | some v =>
                    have := m1 u v hv
                    rw [this] at hnone
                    exact Option.noConfusion hnone
            · have hjoin : ((Δs1 ++ Δs2).map
                  (fun u => (rdepsOf rd u).map (fun x => (x, u)))).flatten
                  = (Δs1.map (fun u => (rdepsOf rd u).map (fun x => (x, u)))).flatten
                    ++ (Δs2.map (fun u => (rdepsOf rd u).map (fun x => (x, u)))).flatten := by
                rw [List.map_append, List.flatten_append]
              rw [hjoin]
              have hstep1 : (Δe1 ++ ((d, t) :: Δe2)).Perm
                  (Δe1 ++ ((d, t) :: (ds.map (fun x => (x, t)) ++
                    (Δs2.map (fun u => (rdepsOf rd u).map (fun x => (x, u)))).flatten))) :=
                List.Perm.append_left _ (List.Perm.cons _ hperm2)
              have hstep2 : (Δe1 ++ ((d, t) :: (ds.map (fun x => (x, t)) ++
                    (Δs2.map (fun u => (rdepsOf rd u).map (fun x => (x, u)))).flatten))).Perm
                  ((d, t) :: (Δe1 ++ (ds.map (fun x => (x, t)) ++
                    (Δs2.map (fun u => (rdepsOf rd u).map (fun x => (x, u)))).flatten))) :=
                List.perm_middle
              have hinner : (Δe1 ++ (ds.map (fun x => (x, t)) ++
                    (Δs2.map (fun u => (rdepsOf rd u).map (fun x => (x, u)))).flatten)).Perm
                  (ds.map (fun x => (x, t)) ++
                    ((Δs1.map (fun u => (rdepsOf rd u).map (fun x => (x, u)))).flatten ++
                     (Δs2.map (fun u => (rdepsOf rd u).map (fun x => (x, u)))).flatten)) := by
                refine (hperm1.append_right _).trans ?_
                rw [← List.append_assoc, ← List.append_assoc]
                exact List.perm_append_comm.append_right _
              exact hstep1.trans (hstep2.trans (List.Perm.cons _ hinner))
          · intro u hu
            rcases hsum2 u hu with hu2 | hu2 | hu2
            · have hu2' : (alook (sumSet s1.summands t d (ctx.fdiff d t ad)) u).isSome
                  = true := hu2
              rcases (sumSet_isSome s1.summands t d (ctx.fdiff d t ad) u).1 hu2'
                  with hu1 | rfl
              · rcases hsum1 u hu1 with h0 | h0
                · exact Or.inl h0
                · exact Or.inr (Or.inr h0)
              · exact Or.inr (Or.inl rfl)
            · exact Or.inr (Or.inl hu2)
            · exact Or.inr (Or.inr hu2)
          · refine ⟨ctx.fdiff d t ad :: parts2,
              List.Forall₂.cons ⟨f1, ad, hpure1, rfl⟩ hf2, ?_⟩
            rw [List.foldl_cons]
            exact hr2

theorem forall2_uniform (ctx : DiffCtx) (rd : RMap) (output : TId) (head : SemTensor)
    (t : TId) :
    ∀ (l : List TId) (parts : List SemTensor),
      List.Forall₂ (fun d p => ∃ f ad, pureAdj ctx rd output head f d = some ad ∧
        p = ctx.fdiff d t ad) l parts →
      ∃ F, mapO (fun dep => (pureAdj ctx rd output head F dep).map
        (fun ad => ctx.fdiff dep t ad)) l = some parts := by
  intro l
  induction l with
  | nil =>
      intro parts h
      cases h
      exact ⟨0, rfl⟩
  | cons d ds ih =>
      intro parts h
      cases parts with
      | nil => cases h
      | cons p ps =>
          cases h with
          | cons hdp htl =>
              obtain ⟨f, ad, hp, hpe⟩ := hdp
              obtain ⟨F2, hm⟩ := ih ps htl
              refine ⟨max f F2, ?_⟩
              have hm' : mapO (fun dep => (pureAdj ctx rd output head (max f F2) dep).map
                  (fun ad => ctx.fdiff dep t ad)) ds = some ps := by
                refine mapO_congr_some ?_ hm
                intro x _ b hb
                rcases Option.map_eq_some'.1 hb with ⟨ad', hpa, hfe⟩
                rw [pureAdj_mono ctx rd output head F2 (max f F2) (le_max_right f F2)
                  x ad' hpa]
                simp [hfe]
              simp only [mapO]
              rw [pureAdj_mono ctx rd output head f (max f F2) (le_max_left f F2) _ ad hp]
              rw [hm']
              subst hpe
              rfl

theorem foldl_opt_none (addFn : SemTensor → SemTensor → SemTensor)
    (ps : List SemTensor) :
    ps.foldl (fun o q => some (match o with
      | none => q
      | some rr => addFn rr q)) none = combineParts addFn (some ps) := by
  cases ps with
  | nil => rfl
  | cons p ps =>
      simp only [List.foldl_cons, combineParts]
      exact optFold_some addFn ps p

theorem computeAdjoint_spec (ctx : DiffCtx) (rd : RMap) (output : TId) (head : SemTensor)
    (rank : TId → Nat)
    (Hrank : ∀ t, ∀ d ∈ rdepsOf rd t, rank d < rank t) :
    ∀ (fuel : Nat) (t : TId) (s : DState) (a : SemTensor) (s' : DState),
      computeAdjoint ctx rd output head fuel t s = some (a, s') →
      GoodState ctx rd output head s →
      CAPost ctx rd output head rank t s a s' := by
  intro fuel
  induction fuel with
  | zero => intro t s a s' h _; exact absurd h (by simp [computeAdjoint])
  | succ fuel ih =>
      intro t s a s' h hg
      simp only [computeAdjoint] at h
      cases hmem : alook s.adjoints t with
      | some v =>
          rw [hmem] at h
          injection h with h
          injection h with h1 h2
          subst h1
          subst h2
          exact ⟨fun u w hw => hw, hg, fun u w hw => Or.inl hw,
            ⟨[], [], by simp, by simp, by simp, by simp, by simp⟩,
            fun u hu => Or.inl hu, hmem, hg.2 t v hmem⟩
      | none =>
          rw [hmem] at h
          have htout : t ≠ output := by
            intro he
            rw [he, hg.1] at hmem
            exact Option.noConfusion hmem
          by_cases hrd : rdepsOf rd t = []
          · simp only [if_pos hrd] at h
            injection h with h
            injection h with h1 h2
            subst h1
            subst h2
            refine ⟨?_, ⟨?_, ?_⟩, ?_, ⟨[t], [], rfl, by simp, by simp, ?_, by simp [hrd]⟩,
              fun u hu => Or.inl hu, ?_, ⟨1, by simp [pureAdj, pureAdjAux, htout, hrd]⟩⟩
            · intro u w hw
              exact alook_append_left _ hw
            · exact alook_append_left _ hg.1
            · intro u w hw
              rcases alook_append_single hw with hw1 | ⟨he, hv, _⟩
              · exact hg.2 u w hw1
              · subst he
                subst hv
                exact ⟨1, by simp [pureAdj, pureAdjAux, htout, hrd]⟩
            · intro u w hw
              rcases alook_append_single hw with hw1 | ⟨he, _, _⟩
              · exact Or.inl hw1
              · subst he
                exact Or.inr (le_refl _)
            · intro u hu
              have hut : u = t := by simpa using hu
              subst hut
              refine ⟨hmem, ?_, le_refl _⟩
              rw [show alook ({ s with
                  adjoints := s.adjoints ++ [(u, zeroAdjoint ctx head output u)],
                  sessions := s.sessions ++ [u] } : DState).adjoints u
                = alook (s.adjoints ++ [(u, zeroAdjoint ctx head output u)]) u from rfl]
              rw [alook_append_none _ hmem]
              simp [alook]
            · show alook (s.adjoints ++ [(t, zeroAdjoint ctx head output t)]) t
                = some (zeroAdjoint ctx head output t)
              rw [alook_append_none _ hmem]
              simp [alook]
          · rw [if_neg hrd] at h
            cases hal : adjLoop ctx (computeAdjoint ctx rd output head fuel) t
                (rdepsOf rd t) none { s with sessions := s.sessions ++ [t] } with
            | none => rw [hal] at h; exact absurd h (by simp)
            | some pr =>
                obtain ⟨ropt, s1⟩ := pr
                rw [hal] at h
                cases ropt with
                | none => exact absurd h (by simp)
                | some res =>
                    injection h with h
                    injection h with h1 h2
                    subst h1
                    subst h2
                    have hgp : GoodState ctx rd output head
                        { s with sessions := s.sessions ++ [t] } := hg
                    obtain ⟨m2, g2, n2, ⟨Δs, Δe, hsess, hedge, hnd, hmem2, hperm⟩,
                      hsum2, parts, hf2, hr⟩ :=
                      adjLoop_spec ctx rd output head rank fuel ih (rdepsOf rd t) t none
                        { s with sessions := s.sessions ++ [t] } (some res) s1
                        (fun d hd => Hrank t d hd) hal hgp
                    have ht1 : alook s1.adjoints t = none := by
                      cases hv : alook s1.adjoints t with
                      | none => rfl
                      | some w =>
                          rcases n2 t w hv with hw | hlt
                          · have hw' : alook s.adjoints t = some w := hw
                            rw [hw'] at hmem
                            exact Option.noConfusion hmem
                          · exact absurd hlt (lt_irrefl _)
                    obtain ⟨F, hF⟩ := forall2_uniform ctx rd output head t _ _ hf2
                    have hpure : pureAdj ctx rd output head (F + 1) t = some res := by
                      simp only [pureAdj, pureAdjAux, if_neg htout, if_neg hrd]
                      rw [hF, ← foldl_opt_none ctx.addFn parts]
                      exact hr.symm
                    have hstore : alook (s1.adjoints ++ [(t, res)]) t = some res := by
                      rw [alook_append_none _ ht1]
                      simp [alook]
                    refine ⟨?_, ⟨?_, ?_⟩, ?_, ⟨t :: Δs, Δe, ?_, ?_, ?_, ?_, ?_⟩,
                      ?_, hstore, ⟨F + 1, hpure⟩⟩
                    · intro u w hw
                      exact alook_append_left _ (m2 u w hw)
                    · exact alook_append_left _ g2.1
                    · intro u w hw
                      rcases alook_append_single hw with hw1 | ⟨he, hv, _⟩
                      · exact g2.2 u w hw1
                      · subst he
                        subst hv
                        exact ⟨F + 1, hpure⟩
                    · intro u w hw
                      rcases alook_append_single hw with hw1 | ⟨he, _, _⟩
                      · rcases n2 u w hw1 with h0 | hlt
                        · exact Or.inl h0
                        · exact Or.inr (le_of_lt hlt)
                      · subst he
                        exact Or.inr (le_refl _)
                    · show s1.sessions = s.sessions ++ (t :: Δs)
                      rw [hsess]
                      simp
                    · show s1.edges = s.edges ++ Δe
                      exact hedge
                    · refine List.nodup_cons.mpr ⟨?_, hnd⟩
                      intro hin
                      exact absurd ((hmem2 t hin).2.2) (lt_irrefl _)
                    · intro u hu
                      rcases List.mem_cons.1 hu with he | hin
                      · subst he
                        refine ⟨hmem, ?_, le_refl _⟩
                        rw [show alook ({ s1 with
                            adjoints := s1.adjoints ++ [(u, res)] } : DState).adjoints u
                          = alook (s1.adjoints ++ [(u, res)]) u from rfl]
                        rw [alook_append_none _ ht1]
                        simp [alook]
                      · obtain ⟨hnone, hsome, hlt⟩ := hmem2 u hin
                        refine ⟨hnone, ?_, le_of_lt hlt⟩
                        rcases Option.isSome_iff_exists.1 hsome with ⟨w, hw⟩
                        rw [show alook ({ s1 with
                            adjoints := s1.adjoints ++ [(t, res)] } : DState).adjoints u
                          = alook (s1.adjoints ++ [(t, res)]) u from rfl]
                        rw [alook_append_left _ hw]
                        rfl
                    · simp only [List.map_cons, List.flatten_cons]
                      exact hperm
                    · intro u hu
                      rcases hsum2 u hu with h0 | he | hne
                      · exact Or.inl h0
                      · subst he
                        exact Or.inr hrd
                      · exact Or.inr hne

theorem alook_rAppend_ne (m : RMap) (c t : TId) {x : TId} (hx : x ≠ c) :
    alook (rAppend m c t) x = alook m x := by
  induction m with
  | nil =>
      simp only [rAppend, alook]
      rw [if_neg (fun h => hx h.symm)]
  | cons kv rest ih =>
      obtain ⟨k, l⟩ := kv
      simp only [rAppend]
      by_cases hk : k = c
      · subst hk
        simp only [alook]
        rw [if_neg (fun h => hx h.symm), if_neg (fun h => hx h.symm)]
      · rw [if_neg hk]
        simp only [alook]
        by_cases hkx : k = x
        · simp [hkx]
        · rw [if_neg hkx, if_neg hkx]
          exact ih

theorem alook_rAppend_self (m : RMap) (c t : TId) :
    alook (rAppend m c t) c = some ((alook m c).getD [] ++ [t]) := by
  induction m with
  | nil => simp [rAppend, alook]
  | cons kv rest ih =>
      obtain ⟨k, l⟩ := kv
      simp only [rAppend]
      by_cases hk : k = c
      · subst hk
        simp [alook]
      · rw [if_neg hk]
        simp only [alook, if_neg hk]
        exact ih

theorem rAppend_isSome_mono (m : RMap) (c t : TId) {u : TId}
    (h : (alook m u).isSome = true) : (alook (rAppend m c t) u).isSome = true := by
  by_cases hu : u = c
  · subst hu
    rw [alook_rAppend_self]
    rfl
  · rw [alook_rAppend_ne m c t hu]
    exact h

theorem rdChildren_isSome_mono (t : TId) :
    ∀ (cs : List TId) (stack : List TId) (m : RMap) (pushes : List TId) (u : TId),
      (alook m u).isSome = true →
      (alook (rdChildren t cs (stack, m, pushes)).2.1 u).isSome = true := by
  intro cs
  induction cs with
  | nil => intro stack m pushes u h; exact h
  | cons c cs ih =>
      intro stack m pushes u h
      simp only [rdChildren]
      exact ih _ _ _ u (rAppend_isSome_mono m c t h)

/-- The invariant of the reverse-dependency collection loop: the push
trace is duplicate-free and only names tensors with a
reverse-dependency entry (or the seed `output`); no tensor sits both
in the collect trace and on the stack, or twice in either; stack
entries carry rank at least the output's; and every entry of the map
is keyed by a tensor of rank above the output's and stores a
duplicate-free list of already-collected consumers of smaller rank. -/
def RdInv (output : TId) (rank : TId → Nat)
    (stack : List TId) (m : RMap) (pushes collects : List TId) : Prop :=
  pushes.Nodup ∧
  (∀ u ∈ pushes, (alook m u).isSome = true ∨ u = output) ∧
  (collects ++ stack).Nodup ∧
  (∀ u ∈ stack, rank output ≤ rank u) ∧
  (∀ u ∈ stack, (alook m u).isSome = true ∨ u = output) ∧
  (∀ u ∈ collects, (alook m u).isSome = true ∨ u = output) ∧
  (∀ c l, alook m c = some l → rank output < rank c ∧ l.Nodup ∧
    ∀ u ∈ l, u ∈ collects ∧ rank u < rank c)

/-- The same invariant in the middle of one tensor's sub-tensor pass,
where the popped tensor `t` already counts as collected but its
consumership may still be pending for the remaining children. -/
def RdMid (output : TId) (rank : TId → Nat) (t : TId)
    (collects stack : List TId) (m : RMap) (pushes : List TId) : Prop :=
  pushes.Nodup ∧
  (∀ u ∈ pushes, (alook m u).isSome = true ∨ u = output) ∧
  ((collects ++ [t]) ++ stack).Nodup ∧
  (∀ u ∈ stack, rank output ≤ rank u) ∧
  (∀ u ∈ stack, (alook m u).isSome = true ∨ u = output) ∧
  (∀ u ∈ collects, (alook m u).isSome = true ∨ u = output) ∧
  (∀ c l, alook m c = some l → rank output < rank c ∧ l.Nodup ∧
    ∀ u ∈ l, (u ∈ collects ∨ u = t) ∧ rank u < rank c)

theorem rdChildren_inv (output : TId) (rank : TId → Nat) (t : TId) (collects : List TId)
    (htr : rank output ≤ rank t) :
    ∀ (cs : List TId), cs.Nodup →
      (∀ c ∈ cs, rank t < rank c) →
      ∀ (stack : List TId) (m : RMap) (pushes : List TId),
      (∀ c ∈ cs, ∀ l, alook m c = some l → t ∉ l) →
      RdMid output rank t collects stack m pushes →
      RdMid output rank t collects
        (rdChildren t cs (stack, m, pushes)).1
        (rdChildren t cs (stack, m, pushes)).2.1
        (rdChildren t cs (stack, m, pushes)).2.2 := by
  intro cs
  induction cs with
  | nil => intro _ _ stack m pushes _ hmid; exact hmid
  | cons c cs ih =>
      intro hnd hT stack m pushes hpend hmid
      obtain ⟨i1, i2, i3, i4, i5, i6, i7⟩ := hmid
      have hTc : rank t < rank c := hT c (by simp)
      have hco : rank output < rank c := lt_of_le_of_lt htr hTc
      have hcne : c ≠ output := by
        intro he
        rw [he] at hco
        exact absurd hco (lt_irrefl _)
      have hct : c ≠ t := by
        intro he
        rw [he] at hTc
        exact absurd hTc (lt_irrefl _)
      cases halook : alook m c with
      | some l =>
          have hred : rdChildren t (c :: cs) (stack, m, pushes)
              = rdChildren t cs (stack, rAppend m c t, pushes) := by
            simp [rdChildren, halook]
          rw [hred]
          refine ih hnd.of_cons (fun x hx => hT x (by simp [hx])) stack _ pushes ?_ ?_
          · intro x hx l' hl'
            have hxc : x ≠ c := by
              intro he
              subst he
              exact (List.nodup_cons.1 hnd).1 hx
            rw [alook_rAppend_ne m c t hxc] at hl'
            exact hpend x (by simp [hx]) l' hl'
          · refine ⟨i1, ?_, i3, i4, ?_, ?_, ?_⟩
            · intro u hu
              rcases i2 u hu with h0 | h0
              · exact Or.inl (rAppend_isSome_mono m c t h0)
              · exact Or.inr h0
            · intro u hu
              rcases i5 u hu with h0 | h0
              · exact Or.inl (rAppend_isSome_mono m c t h0)
              · exact Or.inr h0
            · intro u hu
              rcases i6 u hu with h0 | h0
              · exact Or.inl (rAppend_isSome_mono m c t h0)
              · exact Or.inr h0
            · intro x l' hl'
              by_cases hxc : x = c
              · subst hxc
                rw [alook_rAppend_self m x t, halook] at hl'
                injection hl' with hl'
                subst hl'
                obtain ⟨hr, hn, hel⟩ := i7 x l halook
                have htl : t ∉ l := hpend x (by simp) l halook
                refine ⟨hr, ?_, ?_⟩
                · simp only [Option.getD_some]
                  refine List.Nodup.append hn (by simp) ?_
                  intro a ha hb
                  simp only [List.mem_singleton] at hb
                  subst hb
                  exact htl ha
                · intro u hu
                  simp only [Option.getD_some] at hu
                  rcases List.mem_append.1 hu with h0 | h0
                  · exact hel u h0
                  · simp only [List.mem_singleton] at h0
                    subst h0
                    exact ⟨Or.inr rfl, hTc⟩
              · rw [alook_rAppend_ne m c t hxc] at hl'
                exact i7 x l' hl'
      | none =>
          have hred : rdChildren t (c :: cs) (stack, m, pushes)
              = rdChildren t cs (c :: stack, rAppend m c t, pushes ++ [c]) := by
            simp [rdChildren, halook]
          rw [hred]
          have hcp : c ∉ pushes := by
            intro hin
            rcases i2 c hin with h0 | h0
            · rw [halook] at h0; simp at h0
            · exact hcne h0
          have hsome : (alook (rAppend m c t) c).isSome = true := by
            rw [alook_rAppend_self m c t]
            rfl
          refine ih hnd.of_cons (fun x hx => hT x (by simp [hx])) _ _ _ ?_ ?_
          · intro x hx l' hl'
            have hxc : x ≠ c := by
              intro he
              subst he
              exact (List.nodup_cons.1 hnd).1 hx
            rw [alook_rAppend_ne m c t hxc] at hl'
            exact hpend x (by simp [hx]) l' hl'
          · refine ⟨?_, ?_, ?_, ?_, ?_, ?_, ?_⟩
            · refine List.Nodup.append i1 (by simp) ?_
              intro a ha hb
              simp only [List.mem_singleton] at hb
              subst hb
              exact hcp ha
            · intro u hu
              rcases List.mem_append.1 hu with h0 | h0
              · rcases i2 u h0 with h1 | h1
                · exact Or.inl (rAppend_isSome_mono m c t h1)
                · exact Or.inr h1
              · simp only [List.mem_singleton] at h0
                subst h0
                exact Or.inl hsome
            · refine List.nodup_middle.mpr (List.nodup_cons.mpr ⟨?_, i3⟩)
              intro hin
              rcases List.mem_append.1 hin with h0 | h0
              · rcases List.mem_append.1 h0 with h1 | h1
                · rcases i6 c h1 with h2 | h2
                  · rw [halook] at h2; simp at h2
                  · exact hcne h2
                · simp only [List.mem_singleton] at h1
                  exact hct h1
              · rcases i5 c h0 with h2 | h2
                · rw [halook] at h2; simp at h2
                · exact hcne h2
            · intro u hu
              rcases List.mem_cons.1 hu with he | h0
              · subst he
                exact le_of_lt hco
              · exact i4 u h0
            · intro u hu
              rcases List.mem_cons.1 hu with he | h0
              · subst he
                exact Or.inl hsome
              · rcases i5 u h0 with h1 | h1
                · exact Or.inl (rAppend_isSome_mono m c t h1)
                · exact Or.inr h1
            · intro u hu
              rcases i6 u hu with h1 | h1
              · exact Or.inl (rAppend_isSome_mono m c t h1)
              · exact Or.inr h1
            · intro x l' hl'
              by_cases hxc : x = c
              · subst hxc
                rw [alook_rAppend_self m x t, halook] at hl'
                injection hl' with hl'
                subst hl'
                refine ⟨hco, by simp, ?_⟩
                intro u hu
                simp only [Option.getD_none, List.nil_append,
                  List.mem_singleton] at hu
                subst hu
                exact ⟨Or.inr rfl, hTc⟩
              · rw [alook_rAppend_ne m c t hxc] at hl'
                exact i7 x l' hl'

theorem rdLoop_inv (ctx : DiffCtx) (output : TId) (rank : TId → Nat)
    (HrankC : ∀ t l, ctx.compute t = some l → ∀ c ∈ l, rank t < rank c)
    (HC : ∀ t l, ctx.compute t = some l → l.Nodup) :
    ∀ (fuel : Nat) (stack : List TId) (m : RMap) (pushes collects : List TId)
      (rd : RMap) (P C : List TId),
      rdLoop ctx fuel stack m pushes collects = some (rd, P, C) →
      RdInv output rank stack m pushes collects →
      RdInv output rank [] rd P C := by
  intro fuel
  induction fuel with
  | zero => intro stack m pushes collects rd P C h _; exact absurd h (by simp [rdLoop])
  | succ fuel ih =>
      intro stack m pushes collects rd P C h hinv
      cases stack with
      | nil =>
          simp only [rdLoop] at h
          injection h with h
          obtain ⟨i1, i2, i3, i4, i5, i6, i7⟩ := hinv
          cases h
          exact ⟨i1, i2, i3, i4, i5, i6, i7⟩
      | cons t rest =>
          simp only [rdLoop] at h
          obtain ⟨i1, i2, i3, i4, i5, i6, i7⟩ := hinv
          cases hcmp : ctx.compute t with
          | none =>
              rw [hcmp] at h
              refine ih rest m pushes collects rd P C h
                ⟨i1, i2, ?_, ?_, ?_, i6, i7⟩
              · refine List.Nodup.sublist ?_ i3
                exact List.Sublist.append_left (List.sublist_cons_self t rest) collects
              · intro u hu
                exact i4 u (by simp [hu])
              · intro u hu
                exact i5 u (by simp [hu])
          | some children =>
              rw [hcmp] at h
              have htr : rank output ≤ rank t := i4 t (by simp)
              have htc : t ∉ collects := by
                intro hin
                exact (List.nodup_cons.1 (List.nodup_middle.mp i3)).1
                  (List.mem_append.2 (Or.inl hin))
              have hmid : RdMid output rank t collects rest m pushes := by
                refine ⟨i1, i2, ?_, ?_, ?_, i6, ?_⟩
                · rw [← List.append_cons collects t rest]
                  exact i3
                · intro u hu
                  exact i4 u (by simp [hu])
                · intro u hu
                  exact i5 u (by simp [hu])
                · intro c l hl
                  obtain ⟨hr, hn, hel⟩ := i7 c l hl
                  exact ⟨hr, hn, fun u hu => ⟨Or.inl (hel u hu).1, (hel u hu).2⟩⟩
              have hpend : ∀ c ∈ children, ∀ l, alook m c = some l → t ∉ l := by
                intro c _ l hl hin
                exact htc ((i7 c l hl).2.2 t hin).1
              have hpost := rdChildren_inv output rank t collects htr children
                (HC t children hcmp) (HrankC t children hcmp) rest m pushes hpend hmid
              obtain ⟨p1, p2, p3, p4, p5, p6, p7⟩ := hpost
              have ht5 : (alook m t).isSome = true ∨ t = output := i5 t (by simp)
              refine ih _ _ _ _ rd P C h ⟨p1, p2, p3, p4, p5, ?_, ?_⟩
              · intro u hu
                rcases List.mem_append.1 hu with h0 | h0
                · exact p6 u h0
                · simp only [List.mem_singleton] at h0
                  subst h0
                  rcases ht5 with h1 | h1
                  · exact Or.inl (rdChildren_isSome_mono u children rest m pushes u h1)
                  · exact Or.inr h1
              · intro c l hl
                obtain ⟨hr, hn, hel⟩ := p7 c l hl
                refine ⟨hr, hn, ?_⟩
                intro u hu
                rcases (hel u hu).1 with h0 | h0
                · exact ⟨by simp [h0], (hel u hu).2⟩
                · exact ⟨by simp [h0], (hel u hu).2⟩

/-- The cumulative post-condition of a sequence of `compute_adjoint`
calls: the adjoints map only grows and stays consistent with the
memo-free specification, the session trace grows by a duplicate-free
block of previously-uncomputed tensors, the edge trace grows by one
full consumer list per new session up to permutation, and new summand
entries belong to tensors with consumers. -/
def RunPost (ctx : DiffCtx) (rd : RMap) (output : TId) (head : SemTensor)
    (s s' : DState) : Prop :=
  (∀ u v, alook s.adjoints u = some v → alook s'.adjoints u = some v) ∧
  GoodState ctx rd output head s' ∧
  (∃ Δs Δe, s'.sessions = s.sessions ++ Δs ∧ s'.edges = s.edges ++ Δe ∧
    Δs.Nodup ∧
    (∀ u ∈ Δs, alook s.adjoints u = none ∧ (alook s'.adjoints u).isSome = true) ∧
    Δe.Perm (Δs.map (fun u => (rdepsOf rd u).map (fun d => (d, u)))).flatten) ∧
  (∀ u, (alook s'.summands u).isSome = true →
    (alook s.summands u).isSome = true ∨ rdepsOf rd u ≠ [])

theorem capost_run (ctx : DiffCtx) (rd : RMap) (output : TId) (head : SemTensor)
    (rank : TId → Nat) (t : TId) (s : DState) (a : SemTensor) (s' : DState)
    (h : CAPost ctx rd output head rank t s a s') :
    RunPost ctx rd output head s s' := by
  obtain ⟨m, g, _, ⟨Δs, Δe, h1, h2, h3, h4, h5⟩, hs, _, _⟩ := h
  exact ⟨m, g, ⟨Δs, Δe, h1, h2, h3, fun u hu => ⟨(h4 u hu).1, (h4 u hu).2.1⟩, h5⟩, hs⟩

theorem runpost_refl (ctx : DiffCtx) (rd : RMap) (output : TId) (head : SemTensor)
    (s : DState) (hg : GoodState ctx rd output head s) :
    RunPost ctx rd output head s s :=
  ⟨fun _ _ hv => hv, hg, ⟨[], [], by simp, by simp, by simp, by simp, by simp⟩,
    fun _ hu => Or.inl hu⟩

theorem runpost_trans (ctx : DiffCtx) (rd : RMap) (output : TId) (head : SemTensor)
    {s s1 s2 : DState} (hA : RunPost ctx rd output head s s1)
    (hB : RunPost ctx rd output head s1 s2) :
    RunPost ctx rd output head s s2 := by
  obtain ⟨mA, _, ⟨ΔsA, ΔeA, hs1, he1, hn1, hf1, hp1⟩, hsumA⟩ := hA
  obtain ⟨mB, gB, ⟨ΔsB, ΔeB, hs2, he2, hn2, hf2, hp2⟩, hsumB⟩ := hB
  refine ⟨fun u v hv => mB u v (mA u v hv), gB,
    ⟨ΔsA ++ ΔsB, ΔeA ++ ΔeB, ?_, ?_, ?_, ?_, ?_⟩, ?_⟩
  · rw [hs2, hs1, List.append_assoc]
  · rw [he2, he1, List.append_assoc]
  · refine List.Nodup.append hn1 hn2 ?_
    intro u hu1 hu2
    rcases Option.isSome_iff_exists.1 (hf1 u hu1).2 with ⟨v, hv⟩
    have h0 := (hf2 u hu2).1
    rw [hv] at h0
    exact Option.noConfusion h0
  · intro u hu
    rcases List.mem_append.1 hu with hu1 | hu2
    · obtain ⟨hnone, hsome⟩ := hf1 u hu1
      rcases Option.isSome_iff_exists.1 hsome with ⟨v, hv⟩
      refine ⟨hnone, ?_⟩
      rw [mB u v hv]
      rfl
    · obtain ⟨hnone, hsome⟩ := hf2 u hu2
      refine ⟨?_, hsome⟩
      cases hv : alook s.adjoints u with
      | none => rfl
      | some v =>
          have h0 := mA u v hv
          rw [h0] at hnone
          exact Option.noConfusion hnone
  · rw [List.map_append, List.flatten_append]
    exact hp1.append hp2
  · intro u hu
    rcases hsumB u hu with h0 | h0
    · rcases hsumA u h0 with h1 | h1
      · exact Or.inl h1
      · exact Or.inr h1
    · exact Or.inr h0

theorem runAll_post (ctx : DiffCtx) (rd : RMap) (output : TId) (head : SemTensor)
    (rank : TId → Nat)
    (Hrank : ∀ t, ∀ d ∈ rdepsOf rd t, rank d < rank t) (fuel : Nat) :
    ∀ (keys : List TId) (s s' : DState),
      runAll (computeAdjoint ctx rd output head fuel) keys s = some s' →
      GoodState ctx rd output head s →
      RunPost ctx rd output head s s' ∧
      ∀ t ∈ keys, (alook s'.adjoints t).isSome = true := by
  intro keys
  induction keys with
  | nil =>
      intro s s' h hg
      simp only [runAll] at h
      injection h with h
      subst h
      exact ⟨runpost_refl ctx rd output head s hg, by simp⟩
  | cons t ts ih =>
      intro s s' h hg
      simp only [runAll] at h
      cases hca : computeAdjoint ctx rd output head fuel t s with
      | none => rw [hca] at h; exact absurd h (by simp)
      | some pr =>
          obtain ⟨a, s1⟩ := pr
          rw [hca] at h
          have hpost := computeAdjoint_spec ctx rd output head rank Hrank fuel t s a s1
            hca hg
          have hrun1 := capost_run ctx rd output head rank t s a s1 hpost
          obtain ⟨hrest, hmem⟩ := ih s1 s' h hrun1.2.1
          refine ⟨runpost_trans ctx rd output head hrun1 hrest, ?_⟩
          intro u hu
          rcases List.mem_cons.1 hu with he | hin
          · subst he
            have hst : alook s1.adjoints u = some a := hpost.2.2.2.2.2.1
            rw [hrest.1 u a hst]
            rfl
          · exact hmem u hin

theorem runInputs_post (ctx : DiffCtx) (rd : RMap) (output : TId) (head : SemTensor)
    (rank : TId → Nat)
    (Hrank : ∀ t, ∀ d ∈ rdepsOf rd t, rank d < rank t) (fuel : Nat) :
    ∀ (inputs : List TId) (s : DState) (res : List SemTensor) (s' : DState),
      runInputs (computeAdjoint ctx rd output head fuel) inputs s = some (res, s') →
      GoodState ctx rd output head s →
      RunPost ctx rd output head s s' ∧
      List.Forall₂ (fun t a => alook s'.adjoints t = some a ∧
        ∃ f, pureAdj ctx rd output head f t = some a) inputs res := by
  intro inputs
  induction inputs with
  | nil =>
      intro s res s' h hg
      simp only [runInputs] at h
      injection h with h
      injection h with h1 h2
      subst h1
      subst h2
      exact ⟨runpost_refl ctx rd output head s hg, List.Forall₂.nil⟩
  | cons t ts ih =>
      intro s res s' h hg
      simp only [runInputs] at h
      split at h
      · exact absurd h (by simp)
      · next a s1 hca =>
          split at h
          · exact absurd h (by simp)
          · next rest s2 hrec =>
              injection h with h
              injection h with h1 h2
              subst h1
              subst h2
              have hpost := computeAdjoint_spec ctx rd output head rank Hrank fuel t s a
                s1 hca hg
              have hrun1 := capost_run ctx rd output head rank t s a s1 hpost
              obtain ⟨hrest, hmem⟩ := ih s1 rest s2 hrec hrun1.2.1
              refine ⟨runpost_trans ctx rd output head hrun1 hrest, ?_⟩
              refine List.Forall₂.cons ⟨?_, hpost.2.2.2.2.2.2⟩ hmem
              exact hrest.1 t a hpost.2.2.2.2.2.1

theorem mapO_forall2 {α β : Type} (f : α → Option β) :
    ∀ (l : List α) (l' : List β), mapO f l = some l' →
      List.Forall₂ (fun a b => f a = some b) l l' := by
  intro l
  induction l with
  | nil =>
      intro l' h
      injection h with h
      subst h
      exact List.Forall₂.nil
  | cons a as ih =>
      intro l' h
      simp only [mapO] at h
      cases hfa : f a with
      | none => rw [hfa] at h; exact absurd h (by simp)
      | some b =>
          rw [hfa] at h
          cases hrest : mapO f as with
          | none => rw [hrest] at h; exact absurd h (by simp)
          | some bs =>
              rw [hrest] at h
              injection h with h
              subst h
              exact List.Forall₂.cons hfa (ih bs hrest)

theorem flatten_tagged_nodup (rd : RMap) (Δs : List TId)
    (hΔ : Δs.Nodup) (hl : ∀ u, (rdepsOf rd u).Nodup) :
    ((Δs.map (fun u => (rdepsOf rd u).map (fun d => (d, u)))).flatten).Nodup := by
  rw [List.nodup_flatten]
  constructor
  · intro l hls
    rcases List.mem_map.1 hls with ⟨u, _, rfl⟩
    exact (hl u).map (fun a b hab => congrArg Prod.fst hab)
  · refine List.Pairwise.map _ ?_ hΔ
    intro u v huv
    intro x hxu hxv
    rcases List.mem_map.1 hxu with ⟨d, _, rfl⟩
    rcases List.mem_map.1 hxv with ⟨d', _, he⟩
    exact huv (congrArg Prod.snd he).symm

theorem forall2_mem_left {α β : Type} {R : α → β → Prop} :
    ∀ {l : List α} {l' : List β}, List.Forall₂ R l l' → ∀ a ∈ l, ∃ b, R a b := by
  intro l
  induction l with
  | nil => intro l' _ a ha; simp at ha
  | cons x xs ih =>
      intro l' h a ha
      cases h with
      | cons hx hxs =>
          rcases List.mem_cons.1 ha with he | hin
          · subst he
            exact ⟨_, hx⟩
          · exact ih hxs a hin

/-- The combined post-condition of one successful `Differentiate`
call: the reverse-dependency collection succeeded and satisfies its
invariant, the output keeps the head as adjoint, every stored adjoint
and every returned result agrees with the memo-free specification,
summand entries only exist for tensors with consumers, the session
trace is duplicate-free, the `fdiff` trace is one full consumer list
per session up to permutation, and the requested tensors all received
adjoints. -/
theorem differentiate_post (ctx : DiffCtx) (output : TId) (inputs : List TId)
    (headOpt : Option SemTensor) (fuel : Nat) (out : DOut) (rank : TId → Nat)
    (head : SemTensor)
    (hhead : head = headOpt.getD (defaultHead (ctx.shape output) (ctx.dtype output)))
    (HrankC : ∀ t l, ctx.compute t = some l → ∀ c ∈ l, rank t < rank c)
    (HC : ∀ t l, ctx.compute t = some l → l.Nodup)
    (h : differentiate ctx output inputs headOpt fuel = some out) :
    rdLoop ctx fuel [output] [] [output] []
      = some (out.rdeps, out.pushes, out.collects) ∧
    RdInv output rank [] out.rdeps out.pushes out.collects ∧
    alook out.adjoints output = some head ∧
    (∀ u v, alook out.adjoints u = some v →
      ∃ f, pureAdj ctx out.rdeps output head f u = some v) ∧
    (∀ u, (alook out.summands u).isSome = true → rdepsOf out.rdeps u ≠ []) ∧
    out.sessions.Nodup ∧
    out.edges.Perm
      (out.sessions.map (fun u => (rdepsOf out.rdeps u).map (fun d => (d, u)))).flatten ∧
    List.Forall₂ (fun t a => alook out.adjoints t = some a ∧
      ∃ f, pureAdj ctx out.rdeps output head f t = some a) inputs out.result ∧
    (∀ t ∈ inputs, (alook out.adjoints t).isSome = true) ∧
    (inputs = [] → ∀ t ∈ out.rdeps.map (fun kv => kv.1),
      (alook out.adjoints t).isSome = true) := by
  subst hhead
  simp only [differentiate] at h
  split at h
  · exact absurd h (by simp)
  · next rd pushes collects hrdl =>
      split at h
      · exact absurd h (by simp)
      · next s1 hrun =>
          split at h
          · exact absurd h (by simp)
          · next result s2 hrin =>
              injection h with h
              subst h
              have hinv := rdLoop_inv ctx output rank HrankC HC fuel [output] [] [output]
                [] rd pushes collects hrdl
                ⟨by simp, by simp, by simp, fun u hu => by simp at hu; simp [hu],
                 fun u hu => Or.inr (by simpa using hu), by simp,
                 fun c l hl => by simp [alook] at hl⟩
              have Hrank : ∀ t, ∀ d ∈ rdepsOf rd t, rank d < rank t := by
                intro t d hd
                unfold rdepsOf at hd
                cases halook : alook rd t with
                | none => rw [halook] at hd; simp at hd
                | some l =>
                    rw [halook] at hd
                    simp only [Option.getD_some] at hd
                    exact ((hinv.2.2.2.2.2.2 t l halook).2.2 d hd).2
              set head := headOpt.getD (defaultHead (ctx.shape output) (ctx.dtype output))
                with hh
              have hg0 : GoodState ctx rd output head
                  ⟨[(output, head)], [], [], []⟩ := by
                constructor
                · simp [alook]
                · intro u v hv
                  simp only [alook] at hv
                  split at hv
                  · next he =>
                      injection hv with hv
                      subst hv
                      subst he
                      exact ⟨1, by simp [pureAdj, pureAdjAux]⟩
                  · exact absurd hv (by simp)
              obtain ⟨hrp1, hkeys⟩ := runAll_post ctx rd output head rank Hrank fuel
                _ _ s1 hrun hg0
              obtain ⟨hrp2, hforall⟩ := runInputs_post ctx rd output head rank Hrank fuel
                inputs s1 result s2 hrin hrp1.2.1
              have htot := runpost_trans ctx rd output head hrp1 hrp2
              obtain ⟨Δs, Δe, hsess, hedge, hnd, hfresh, hperm⟩ := htot.2.2.1
              have hsess' : s2.sessions = Δs := by simpa using hsess
              have hedge' : s2.edges = Δe := by simpa using hedge
              refine ⟨hrdl, hinv, ?_, htot.2.1.2, ?_, ?_, ?_, hforall, ?_, ?_⟩
              · exact htot.1 output head (by simp [alook])
              · intro u hu
                rcases htot.2.2.2 u hu with h0 | h0
                · simp [alook] at h0
                · exact h0
              · show s2.sessions.Nodup
                rw [hsess']
                exact hnd
              · show s2.edges.Perm _
                rw [hsess', hedge']
                exact hperm
              · intro t ht
                rcases forall2_mem_left hforall t ht with ⟨a, ha1, _⟩
                show (alook s2.adjoints t).isSome = true
                rw [ha1]
                rfl
              · intro he t htm
                subst he
                rcases Option.isSome_iff_exists.1 (hkeys t htm) with ⟨a, ha⟩
                show (alook s2.adjoints t).isSome = true
                rw [hrp2.1 t a ha]
                rfl

/-- C4: in every successful `Differentiate` run over an acyclic graph
(witnessed by a rank function increasing from consumers to producers,
with duplicate-free sub-tensor lists), a tensor `T` other than
`output` whose reverse-dependency list is empty can only be stored
with the zero-valued adjoint of shape
`head.shape[:-rank(output)] ++ T.shape` and dtype `output->dtype`, it
never has a summands entry, and it is actually stored rather than
absent whenever it is a requested input or, with `inputs` empty, a
discovered tensor. -/
theorem c4_zero_adjoint (ctx : DiffCtx) (output : TId) (inputs : List TId)
    (headOpt : Option SemTensor) (fuel : Nat) (out : DOut) (rank : TId → Nat)
    (HrankC : ∀ t l, ctx.compute t = some l → ∀ c ∈ l, rank t < rank c)
    (HC : ∀ t l, ctx.compute t = some l → l.Nodup)
    (h : differentiate ctx output inputs headOpt fuel = some out)
    (T : TId) (hT : T ≠ output) (hrd : rdepsOf out.rdeps T = []) :
    (∀ v, alook out.adjoints T = some v →
      v = zeroAdjoint ctx
        (headOpt.getD (defaultHead (ctx.shape output) (ctx.dtype output))) output T) ∧
    alook out.summands T = none ∧
    ((T ∈ inputs ∨ (inputs = [] ∧ T ∈ out.rdeps.map (fun kv => kv.1))) →
      alook out.adjoints T = some (zeroAdjoint ctx
        (headOpt.getD (defaultHead (ctx.shape output) (ctx.dtype output))) output T)) := by
  obtain ⟨_, _, _, hpure, hsum, _, _, _, hin, hdbg⟩ :=
    differentiate_post ctx output inputs headOpt fuel out rank _ rfl HrankC HC h
  have hval : ∀ v, alook out.adjoints T = some v →
      v = zeroAdjoint ctx
        (headOpt.getD (defaultHead (ctx.shape output) (ctx.dtype output))) output T := by
    intro v hv
    obtain ⟨f, hf⟩ := hpure T v hv
    cases f with
    | zero => simp [pureAdj] at hf
    | succ f =>
        simp only [pureAdj, pureAdjAux, if_neg hT, hrd, if_pos] at hf
        injection hf with hf
        exact hf.symm
  refine ⟨hval, ?_, ?_⟩
  · cases hs : alook out.summands T with
    | none => rfl
    | some w =>
        have hne := hsum T (by rw [hs]; rfl)
        exact absurd hrd hne
  · intro hc
    have hsome : (alook out.adjoints T).isSome = true := by
      rcases hc with hc | ⟨he, hc⟩
      · exact hin T hc
      · exact hdbg he T hc
    rcases Option.isSome_iff_exists.1 hsome with ⟨v, hv⟩
    rw [hv, hval v hv]

/-- C8: in every successful `Differentiate` run over an acyclic
graph, the stored adjoint of a tensor `T` with consumers is the
left-fold chain `((p1 + p2) + p3)` of the per-consumer contributions
`fdiff(dep, T, adjoint(dep))` in the iteration order of `rdeps[T]`
(the first-discovery order of the traversal), and two runs on the
same graph with the same head — even requesting different input lists
and hence visiting tensors in different orders — store structurally
identical adjoints and build identical reverse-dependency maps. -/
theorem c8_chain_determinism (ctx : DiffCtx) (output : TId)
    (inputs inputs2 : List TId) (headOpt : Option SemTensor) (fuel : Nat)
    (out out2 : DOut) (rank : TId → Nat)
    (HrankC : ∀ t l, ctx.compute t = some l → ∀ c ∈ l, rank t < rank c)
    (HC : ∀ t l, ctx.compute t = some l → l.Nodup)
    (h : differentiate ctx output inputs headOpt fuel = some out)
    (h2 : differentiate ctx output inputs2 headOpt fuel = some out2) :
    (∀ T v, alook out.adjoints T = some v → T ≠ output → rdepsOf out.rdeps T ≠ [] →
      ∃ parts p ps,
        List.Forall₂ (fun dep part => ∃ f ad,
          pureAdj ctx out.rdeps output
            (headOpt.getD (defaultHead (ctx.shape output) (ctx.dtype output))) f dep
            = some ad ∧ part = ctx.fdiff dep T ad)
          (rdepsOf out.rdeps T) parts ∧
        parts = p :: ps ∧ v = ps.foldl ctx.addFn p) ∧
    out2.rdeps = out.rdeps ∧
    (∀ T v v2, alook out.adjoints T = some v → alook out2.adjoints T = some v2 →
      v = v2) := by
  obtain ⟨hrdl, _, _, hpure, _, _, _, _, _, _⟩ :=
    differentiate_post ctx output inputs headOpt fuel out rank _ rfl HrankC HC h
  obtain ⟨hrdl2, _, _, hpure2, _, _, _, _, _, _⟩ :=
    differentiate_post ctx output inputs2 headOpt fuel out2 rank _ rfl HrankC HC h2
  have hrdeq : out2.rdeps = out.rdeps := by
    rw [hrdl] at hrdl2
    injection hrdl2 with hrdl2
    exact (congrArg Prod.fst hrdl2).symm
  refine ⟨?_, hrdeq, ?_⟩
  · intro T v hv hTo hne
    obtain ⟨f, hf⟩ := hpure T v hv
    cases f with
    | zero => simp [pureAdj] at hf
    | succ f =>
        simp only [pureAdj, pureAdjAux, if_neg hTo, if_neg hne] at hf
        cases hm : mapO (fun dep =>
            (pureAdj ctx out.rdeps output
              (headOpt.getD (defaultHead (ctx.shape output) (ctx.dtype output))) f dep).map
              (fun ad => ctx.fdiff dep T ad)) (rdepsOf out.rdeps T) with
        | none => rw [hm] at hf; simp [combineParts] at hf
        | some parts =>
            rw [hm] at hf
            cases parts with
            | nil => simp [combineParts] at hf
            | cons p ps =>
                simp only [combineParts] at hf
                injection hf with hf
                refine ⟨p :: ps, p, ps, ?_, rfl, hf.symm⟩
                have hfa := mapO_forall2 _ _ _ hm
                refine List.Forall₂.imp ?_ hfa
                intro dep part hdp
                rcases Option.map_eq_some'.1 hdp with ⟨ad, had, hfe⟩
                exact ⟨f, ad, had, hfe.symm⟩
  · intro T v v2 hv hv2
    obtain ⟨f, hf⟩ := hpure T v hv
    obtain ⟨g, hg⟩ := hpure2 T v2 hv2
    rw [hrdeq] at hg
    exact pureAdj_uniq ctx out.rdeps output _ hf hg

/-- C9: in every successful `Differentiate` run over an acyclic graph
with duplicate-free sub-tensor lists, the reverse-dependency
traversal pushes each tensor at most once and collects each tensor's
sub-tensors at most once, the memoized adjoint computation opens at
most one computing session per tensor, and `fdiff` is invoked at most
once per `(consumer, producer)` edge. -/
theorem c9_once_per_edge (ctx : DiffCtx) (output : TId) (inputs : List TId)
    (headOpt : Option SemTensor) (fuel : Nat) (out : DOut) (rank : TId → Nat)
    (HrankC : ∀ t l, ctx.compute t = some l → ∀ c ∈ l, rank t < rank c)
    (HC : ∀ t l, ctx.compute t = some l → l.Nodup)
    (h : differentiate ctx output inputs headOpt fuel = some out) :
    out.pushes.Nodup ∧ out.collects.Nodup ∧ out.sessions.Nodup ∧
      out.edges.Nodup := by
  obtain ⟨_, hinv, _, _, _, hsess, hperm, _, _, _⟩ :=
    differentiate_post ctx output inputs headOpt fuel out rank _ rfl HrankC HC h
  obtain ⟨i1, _, i3, _, _, _, i7⟩ := hinv
  have hrdnd : ∀ u, (rdepsOf out.rdeps u).Nodup := by
    intro u
    unfold rdepsOf
    cases halook : alook out.rdeps u with
    | none => simp
    | some l => simpa using (i7 u l halook).2.1
  refine ⟨i1, ?_, hsess, ?_⟩
  · simpa using i3
  · exact hperm.symm.nodup
      (flatten_tagged_nodup out.rdeps out.sessions hsess hrdnd)

/-- A three-tensor graph for concrete runs: tensor 0 is the output, a
scalar `ComputeOp` consuming tensor 1; tensors 1 and 2 are
placeholders, with 2 not part of the graph. -/
def cdiffCtx : DiffCtx :=
  { compute := fun t => if t = 0 then some [1] else none
    shape := fun _ => []
    dtype := fun _ => float32
    fdiff := fun _ _ ad => ad
    addFn := fun a _ => a }

theorem cdiffCtx_rankC : ∀ t l, cdiffCtx.compute t = some l → ∀ c ∈ l, id t < id c := by
  intro t l hl c hc
  by_cases ht : t = 0
  · subst ht
    simp only [cdiffCtx] at hl
    rw [if_pos trivial] at hl
    injection hl with hl
    subst hl
    simp only [List.mem_singleton] at hc
    subst hc
    decide
  · simp only [cdiffCtx] at hl
    rw [if_neg ht] at hl
    exact absurd hl (by simp)

theorem cdiffCtx_childNodup : ∀ t l, cdiffCtx.compute t = some l → l.Nodup := by
  intro t l hl
  by_cases ht : t = 0
  · subst ht
    simp only [cdiffCtx] at hl
    rw [if_pos trivial] at hl
    injection hl with hl
    subst hl
    simp
  · simp only [cdiffCtx] at hl
    rw [if_neg ht] at hl
    exact absurd hl (by simp)

/-- The default result container, used only as the `getD` fallback. -/
def dOutD : DOut := ⟨[], [], [], [], [], [], [], []⟩

def c4Out : DOut := (differentiate cdiffCtx 0 [2, 1] none 5).getD dOutD

def c8OutA : DOut := (differentiate cdiffCtx 0 [1, 2] none 5).getD dOutD

def c8OutB : DOut := (differentiate cdiffCtx 0 [2, 1] none 5).getD dOutD

def c9Out : DOut := (differentiate cdiffCtx 0 [] none 5).getD dOutD

theorem c4_zero_adjoint_witness :
    (∀ v, alook c4Out.adjoints 2 = some v →
      v = zeroAdjoint cdiffCtx
        ((none : Option SemTensor).getD
          (defaultHead (cdiffCtx.shape 0) (cdiffCtx.dtype 0))) 0 2) ∧
    alook c4Out.summands 2 = none ∧
    ((2 ∈ [2, 1] ∨ (([2, 1] : List TId) = [] ∧ 2 ∈ c4Out.rdeps.map (fun kv => kv.1))) →
      alook c4Out.adjoints 2 = some (zeroAdjoint cdiffCtx
        ((none : Option SemTensor).getD
          (defaultHead (cdiffCtx.shape 0) (cdiffCtx.dtype 0))) 0 2)) :=
  c4_zero_adjoint cdiffCtx 0 [2, 1] none 5 c4Out id cdiffCtx_rankC cdiffCtx_childNodup
    rfl 2 (by decide) (by decide)

theorem c8_chain_determinism_witness :
    (∀ T v, alook c8OutA.adjoints T = some v → T ≠ 0 → rdepsOf c8OutA.rdeps T ≠ [] →
      ∃ parts p ps,
        List.Forall₂ (fun dep part => ∃ f ad,
          pureAdj cdiffCtx c8OutA.rdeps 0
            ((none : Option SemTensor).getD
              (defaultHead (cdiffCtx.shape 0) (cdiffCtx.dtype 0))) f dep
            = some ad ∧ part = cdiffCtx.fdiff dep T ad)
          (rdepsOf c8OutA.rdeps T) parts ∧
        parts = p :: ps ∧ v = ps.foldl cdiffCtx.addFn p) ∧
    c8OutB.rdeps = c8OutA.rdeps ∧
    (∀ T v v2, alook c8OutA.adjoints T = some v → alook c8OutB.adjoints T = some v2 →
      v = v2) :=
  c8_chain_determinism cdiffCtx 0 [1, 2] [2, 1] none 5 c8OutA c8OutB id
    cdiffCtx_rankC cdiffCtx_childNodup rfl rfl

theorem c9_once_per_edge_witness :
    c9Out.pushes.Nodup ∧ c9Out.collects.Nodup ∧ c9Out.sessions.Nodup ∧
      c9Out.edges.Nodup :=
  c9_once_per_edge cdiffCtx 0 [] none 5 c9Out id cdiffCtx_rankC cdiffCtx_childNodup rfl

end Autodiff
